import Mathlib

/-!
# Verification of the Plonky3 prover pipeline excerpts

Shallow embedding of the repository's FRI prover (`fri/src/prover.rs`), the
uni-stark prover (`uni-stark/src/prover.rs`), the two-adic DFT trait derived
methods (`dft/src/traits.rs`) and the tensor-pcs `WrappedMatrix`
(`tensor-pcs/src/wrapped_matrix.rs`).

Machine integers (`usize`) are modelled as `ℕ`; Rust panics/asserts are
modelled as `Option.none`.  Matrices are modelled column-wise (the DFT trait
operations act on each column independently) or as lists of rows where the
source commits row-major data.  External trait objects (MMCS, challenger,
PCS) are parameters of the embedding; operations of this repository that are
not among the provided source files are modelled from the spec, and each such
definition says so in its doc comment.
-/

set_option maxRecDepth 10000

namespace Plonky3

/-- Reverse the low `n` bits of `i` (the `reverse_bits_len` helper used by the
source's bit-reversed codeword layout; modelled from the spec's description of
bit-reversed order: the low bit of the input becomes the top bit of the
output). -/
def bitRev : ℕ → ℕ → ℕ
  | 0, _ => 0
  | n + 1, i => bitRev n (i / 2) + (i % 2) * 2 ^ n

/-- Evaluate the polynomial with coefficient list `c` (degree `< c.length`)
at the point `x`: `∑ j, c_j · x^j`. -/
def evalPoly {F : Type*} [Semiring F] (c : List F) (x : F) : F :=
  ∑ j ∈ Finset.range c.length, c.getD j 0 * x ^ j

/-- The even-index coefficients of a coefficient list. -/
def evens {F : Type*} : List F → List F
  | [] => []
  | [a] => [a]
  | a :: _ :: t => a :: evens t

/-- The odd-index coefficients of a coefficient list. -/
def odds {F : Type*} : List F → List F
  | [] => []
  | [_] => []
  | _ :: b :: t => b :: odds t

theorem bitRev_lt (n i : ℕ) : bitRev n i < 2 ^ n := by
  induction n generalizing i with
  | zero => simp [bitRev]
  | succ n ih =>
    have h1 : bitRev n (i / 2) < 2 ^ n := ih _
    have h2 : i % 2 ≤ 1 := Nat.le_of_lt_succ (Nat.mod_lt _ (by norm_num))
    have h3 : i % 2 * 2 ^ n ≤ 1 * 2 ^ n := Nat.mul_le_mul_right (2 ^ n) h2
    have : bitRev (n + 1) i = bitRev n (i / 2) + (i % 2) * 2 ^ n := rfl
    rw [this, pow_succ]
    omega

theorem bitRev_two_mul (n i : ℕ) : bitRev (n + 1) (2 * i) = bitRev n i := by
  simp [bitRev, Nat.mul_div_cancel_left, Nat.mul_mod_right]

theorem bitRev_two_mul_add_one (n i : ℕ) :
    bitRev (n + 1) (2 * i + 1) = bitRev n i + 2 ^ n := by
  have h1 : (2 * i + 1) / 2 = i := by omega
  have h2 : (2 * i + 1) % 2 = 1 := by omega
  simp [bitRev, h1, h2]

/-- Reversing `n+1` bits of `j + b·2^n` (with `j` in the low bits, `b` the top
bit) puts `b` at the bottom. -/
theorem bitRev_add_top (n : ℕ) (b : ℕ) (hb : b ≤ 1) :
    ∀ j, j < 2 ^ n → bitRev (n + 1) (j + b * 2 ^ n) = 2 * bitRev n j + b := by
  induction n with
  | zero =>
    intro j hj
    interval_cases j
    interval_cases b <;> simp [bitRev]
  | succ n ih =>
    intro j hj
    have hdiv : (j + b * 2 ^ (n + 1)) / 2 = j / 2 + b * 2 ^ n := by
      interval_cases b <;> rw [pow_succ] <;> omega
    have hmod : (j + b * 2 ^ (n + 1)) % 2 = j % 2 := by
      interval_cases b <;> rw [pow_succ] <;> omega
    have hj2 : j / 2 < 2 ^ n := by
      rw [pow_succ] at hj
      omega
    calc bitRev (n + 2) (j + b * 2 ^ (n + 1))
        = bitRev (n + 1) (j / 2 + b * 2 ^ n) + (j % 2) * 2 ^ (n + 1) := by
          rw [show bitRev (n + 2) (j + b * 2 ^ (n + 1)) =
            bitRev (n + 1) ((j + b * 2 ^ (n + 1)) / 2) +
              ((j + b * 2 ^ (n + 1)) % 2) * 2 ^ (n + 1) from rfl, hdiv, hmod]
      _ = 2 * bitRev n (j / 2) + b + (j % 2) * 2 ^ (n + 1) := by
          rw [ih (j / 2) hj2]
      _ = 2 * (bitRev n (j / 2) + (j % 2) * 2 ^ n) + b := by ring
      _ = 2 * bitRev (n + 1) j + b := rfl

theorem bitRev_bitRev (n : ℕ) : ∀ i, i < 2 ^ n → bitRev n (bitRev n i) = i := by
  induction n with
  | zero => intro i hi; interval_cases i; simp [bitRev]
  | succ n ih =>
    intro i hi
    have hq : i / 2 < 2 ^ n := by rw [pow_succ] at hi; omega
    have hr : i % 2 ≤ 1 := by omega
    have h1 : bitRev (n + 1) i = bitRev n (i / 2) + (i % 2) * 2 ^ n := rfl
    rw [h1, bitRev_add_top n (i % 2) hr _ (bitRev_lt n (i / 2)), ih _ hq]
    omega

/-! ## Two-adic generators

The source fields expose `F::two_adic_generator(n)`, a generator of the
multiplicative subgroup of order `2^n` (spec §3: "Its canonical generator `h`
satisfies `h^(2^n) = 1`, `h^(2^(n-1)) ≠ 1`").  The concrete field
implementations are outside the provided sources, so the generator family is
modelled from the spec as a structure. -/

/-- A coherent family of two-adic subgroup generators of `F`, available up to
level `maxLog`.  Modelled from the spec: `gen n` generates the subgroup of
order `2^n`; coherence `gen (n+1)^2 = gen n` reflects that the subgroups are
nested with compatible canonical generators. -/
structure TwoAdicGens (F : Type*) [Field F] where
  gen : ℕ → F
  maxLog : ℕ
  gen_zero : gen 0 = 1
  gen_one : 1 ≤ maxLog → gen 1 = -1
  gen_sq : ∀ n, n + 1 ≤ maxLog → gen (n + 1) ^ 2 = gen n
  neg_one_ne_one : (-1 : F) ≠ 1

namespace TwoAdicGens

variable {F : Type*} [Field F] (G : TwoAdicGens F)

theorem gen_pow_two_pow {n s : ℕ} (hn : n ≤ G.maxLog) (hs : s ≤ n) :
    G.gen n ^ 2 ^ s = G.gen (n - s) := by
  induction s with
  | zero => simp
  | succ s ih =>
    have hs' : s ≤ n := Nat.le_of_succ_le hs
    have h1 : n - s = (n - (s + 1)) + 1 := by omega
    have h2 : (n - (s + 1)) + 1 ≤ G.maxLog := by omega
    calc G.gen n ^ 2 ^ (s + 1) = (G.gen n ^ 2 ^ s) ^ 2 := by
          rw [← pow_mul, pow_succ]
      _ = G.gen (n - s) ^ 2 := by rw [ih hs']
      _ = G.gen (n - (s + 1)) := by rw [h1, G.gen_sq _ h2]

theorem gen_pow_card {n : ℕ} (hn : n ≤ G.maxLog) : G.gen n ^ 2 ^ n = 1 := by
  rw [G.gen_pow_two_pow hn le_rfl, Nat.sub_self, G.gen_zero]

theorem gen_ne_zero {n : ℕ} (hn : n ≤ G.maxLog) : G.gen n ≠ 0 := by
  intro h
  have := G.gen_pow_card hn
  rw [h, zero_pow (by positivity)] at this
  exact one_ne_zero this.symm

theorem gen_pow_half {n : ℕ} (hn : n + 1 ≤ G.maxLog) :
    G.gen (n + 1) ^ 2 ^ n = -1 := by
  rw [@gen_pow_two_pow F _ G (n + 1) n hn (by omega),
    show n + 1 - n = 1 from by omega, G.gen_one (by omega)]

theorem two_ne_zero (G : TwoAdicGens F) : (2 : F) ≠ 0 := by
  intro h
  apply G.neg_one_ne_one
  linear_combination -h

/-- Primitivity: no power `gen n ^ j` with `0 < j < 2^n` equals `1`. -/
theorem gen_pow_ne_one {n : ℕ} (hn : n ≤ G.maxLog) :
    ∀ j, 0 < j → j < 2 ^ n → G.gen n ^ j ≠ 1 := by
  induction n with
  | zero => intro j hj hj2; omega
  | succ n ih =>
    intro j hj hj2 hcontra
    rcases Nat.even_or_odd j with ⟨i, hi⟩ | hodd
    · -- even exponent: reduce to level n
      subst hi
      have hipos : 0 < i := by omega
      have hilt : i < 2 ^ n := by rw [pow_succ] at hj2; omega
      apply ih (by omega) i hipos hilt
      calc G.gen n ^ i = (G.gen (n + 1) ^ 2) ^ i := by rw [G.gen_sq _ hn]
        _ = G.gen (n + 1) ^ (i + i) := by rw [← pow_mul]; ring_nf
        _ = 1 := hcontra
    · -- odd exponent: `(gen^(2^n))^j = (-1)^j = -1` but `(gen^j)^(2^n) = 1`
      have h1 : (G.gen (n + 1) ^ j) ^ 2 ^ n = 1 := by
        rw [hcontra, one_pow]
      have h2 : (G.gen (n + 1) ^ 2 ^ n) ^ j = -1 := by
        rw [G.gen_pow_half hn, hodd.neg_one_pow]
      rw [← pow_mul, mul_comm, pow_mul, h2] at h1
      exact G.neg_one_ne_one h1

/-- Injectivity of `i ↦ gen n ^ i` on `[0, 2^n)`. -/
theorem gen_pow_injective {n : ℕ} (hn : n ≤ G.maxLog) {i k : ℕ}
    (hi : i < 2 ^ n) (hk : k < 2 ^ n) (h : G.gen n ^ i = G.gen n ^ k) :
    i = k := by
  rcases Nat.lt_trichotomy i k with hlt | heq | hgt
  · exfalso
    apply G.gen_pow_ne_one hn (k - i) (by omega) (by omega)
    have hne : G.gen n ^ i ≠ 0 := pow_ne_zero _ (G.gen_ne_zero hn)
    have hc : G.gen n ^ i * G.gen n ^ (k - i) = G.gen n ^ i * 1 := by
      rw [mul_one, ← pow_add, show i + (k - i) = k from by omega]
      exact h.symm
    exact mul_left_cancel₀ hne hc
  · exact heq
  · exfalso
    apply G.gen_pow_ne_one hn (i - k) (by omega) (by omega)
    have hne : G.gen n ^ k ≠ 0 := pow_ne_zero _ (G.gen_ne_zero hn)
    have hc : G.gen n ^ k * G.gen n ^ (i - k) = G.gen n ^ k * 1 := by
      rw [mul_one, ← pow_add, show k + (i - k) = i from by omega]
      exact h
    exact mul_left_cancel₀ hne hc

/-- Geometric-sum orthogonality: a nontrivial `h`-th root of unity sums to
zero over the subgroup. -/
theorem sum_pow_root_of_ne {x : F} {h : ℕ} (hx : x ^ h = 1) (h1 : x ≠ 1) :
    ∑ j ∈ Finset.range h, x ^ j = 0 := by
  rw [geom_sum_eq h1, hx, sub_self, zero_div]

end TwoAdicGens

/-! ## The two-adic DFT trait (`dft/src/traits.rs`)

`dft_batch` is the one abstract method of `TwoAdicSubgroupDft` (its concrete
implementations are outside the provided sources); it is modelled from the
spec as the forward DFT over the subgroup of size `height`.  All other
operations (`idft_batch`, `coset_dft_batch`, `coset_idft_batch`, `lde_batch`)
are derived in the source and embedded here statement by statement.  The
batch operations act on each column independently, so they are embedded on a
single column; a matrix is a list of equal-height columns. -/

section Dft

variable {F : Type*} [Field F]

/-- Forward DFT of a column `c` with respect to the subgroup generator `ω`
(of order `c.length`): `y_i = ∑_j c_j ω^{i·j}`.  Modelled from the spec
(§4.1): "`dft_batch(M)` — forward DFT over a subgroup of size `height(M)`". -/
def dftCol (ω : F) (c : List F) : List F :=
  (List.range c.length).map fun i =>
    ∑ j ∈ Finset.range c.length, c.getD j 0 * ω ^ (i * j)

/-- Divide every entry of a column by its height (the `divide_by_height`
helper used by `idft_batch`; modelled from the spec (§4.1): "divide every
entry by height"). -/
def divideByHeight (v : List F) : List F :=
  v.map fun x => x / ((v.length : ℕ) : F)

/-- Swap entries `i` and `j` of a column (the `swap_rows` helper of
`p3_matrix` used by `idft_batch`, on a single column). -/
def swapRows (v : List F) (i j : ℕ) : List F :=
  (v.set i (v.getD j 0)).set j (v.getD i 0)

/-- The row-swap loop of `idft_batch` (`dft/src/traits.rs` lines 60–63):
`for row in 1..h/2 { swap_rows(&mut dft, row, h - row) }`. -/
def idftSwapLoop (h : ℕ) (v : List F) : List F :=
  (List.range' 1 (h / 2 - 1)).foldl (fun w r => swapRows w r (h - r)) v

/-- `idft_batch` on a single column, as derived in `dft/src/traits.rs`
(lines 54–65): forward DFT, then divide every entry by the height, then swap
rows `r` and `h − r` for `1 ≤ r < h/2`. -/
def idftCol (ω : F) (c : List F) : List F :=
  idftSwapLoop (dftCol ω c).length (divideByHeight (dftCol ω c))

/-- Multiply row `i` by `shift^i` (the `coset_shift_cols` helper of
`dft/src/util.rs`, not among the provided sources; modelled from the spec
(§4.1): "pre-multiply column j of row i by `s^i`"). -/
def cosetShiftCols (shift : F) (c : List F) : List F :=
  c.mapIdx fun i x => x * shift ^ i

/-- `coset_dft_batch` on a single column (`dft/src/traits.rs` lines 38–46):
shift the coefficients by powers of `shift`, then `dft_batch`. -/
def cosetDftCol (ω : F) (shift : F) (c : List F) : List F :=
  dftCol ω (cosetShiftCols shift c)

/-- `coset_idft_batch` on a single column (`dft/src/traits.rs` lines 78–82):
`idft_batch`, then shift by powers of `shift⁻¹`. -/
def cosetIdftCol (ω : F) (shift : F) (c : List F) : List F :=
  cosetShiftCols shift⁻¹ (idftCol ω c)

/-- `lde_batch` on a single column (`dft/src/traits.rs` lines 92–98):
`idft_batch`, then resize the value buffer to `height << added_bits`
(appending zeros), then `dft_batch` at the larger size.  `ω` generates the
subgroup of order `c.length` and `ω'` the one of order
`c.length <<< addedBits`, as the trait's automatic size selection does. -/
def ldeCol (ω ω' : F) (addedBits : ℕ) (c : List F) : List F :=
  dftCol ω'
    (idftCol ω c ++ List.replicate ((c.length <<< addedBits) - c.length) 0)

theorem dftCol_length (ω : F) (c : List F) : (dftCol ω c).length = c.length := by
  simp [dftCol]

theorem dftCol_getD (ω : F) (c : List F) {i : ℕ} (hi : i < c.length) :
    (dftCol ω c).getD i 0 = ∑ j ∈ Finset.range c.length, c.getD j 0 * ω ^ (i * j) := by
  unfold dftCol
  rw [List.getD_eq_getElem?_getD, List.getElem?_map, List.getElem?_range hi]
  rfl

theorem divideByHeight_length (v : List F) :
    (divideByHeight v).length = v.length := by
  simp [divideByHeight]

theorem divideByHeight_getD (v : List F) {i : ℕ} (hi : i < v.length) :
    (divideByHeight v).getD i 0 = v.getD i 0 / ((v.length : ℕ) : F) := by
  unfold divideByHeight
  rw [List.getD_eq_getElem?_getD, List.getElem?_map,
    List.getElem?_eq_getElem hi]
  rw [List.getD_eq_getElem?_getD, List.getElem?_eq_getElem hi]
  rfl

theorem swapRows_length (v : List F) (i j : ℕ) :
    (swapRows v i j).length = v.length := by
  simp [swapRows]

theorem swapRows_getD (v : List F) {i j k : ℕ} (hij : i ≠ j) (hk : k < v.length) :
    (swapRows v i j).getD k 0 =
      if k = i then v.getD j 0 else if k = j then v.getD i 0 else v.getD k 0 := by
  unfold swapRows
  by_cases hki : k = i
  · subst hki
    rw [if_pos rfl, List.getD_eq_getElem?_getD, List.getElem?_set_ne (Ne.symm hij),
      List.getElem?_set_eq_of_lt _ hk]
    rfl
  · rw [if_neg hki]
    by_cases hkj : k = j
    · subst hkj
      rw [if_pos rfl, List.getD_eq_getElem?_getD,
        List.getElem?_set_eq_of_lt _ (by simpa using hk)]
      rfl
    · rw [if_neg hkj, List.getD_eq_getElem?_getD,
        List.getElem?_set_ne (fun h => hkj h.symm),
        List.getElem?_set_ne (fun h => hki h.symm)]
      exact (List.getD_eq_getElem?_getD v k 0).symm

/-- The first `m` iterations of the row-swap loop. -/
def swapPrefix (h m : ℕ) (v : List F) : List F :=
  (List.range' 1 m).foldl (fun w r => swapRows w r (h - r)) v

theorem range'_one_concat (s n : ℕ) :
    List.range' s (n + 1) = List.range' s n ++ [s + n] := by
  have h := @List.range'_concat 1 s n
  simpa using h

theorem swapPrefix_succ (h m : ℕ) (v : List F) :
    swapPrefix h (m + 1) v = swapRows (swapPrefix h m v) (1 + m) (h - (1 + m)) := by
  unfold swapPrefix
  rw [range'_one_concat, List.foldl_append]
  rfl

theorem swapPrefix_length (h m : ℕ) (v : List F) :
    (swapPrefix h m v).length = v.length := by
  induction m with
  | zero => rfl
  | succ m ih => rw [swapPrefix_succ, swapRows_length, ih]

/-- After the first `m` swap iterations (with `2m < h`), entry `r` holds the
original entry `h − r` when `r` lies in one of the swapped bands, and the
original entry `r` otherwise. -/
theorem swapPrefix_getD (h m : ℕ) (v : List F) (hlen : v.length = h)
    (hm : 2 * m < h) :
    ∀ r, r < h → (swapPrefix h m v).getD r 0 =
      v.getD (if 1 ≤ r ∧ r ≤ m then h - r else if h - m ≤ r then h - r else r) 0 := by
  induction m with
  | zero =>
    intro r hr
    have h1 : ¬(1 ≤ r ∧ r ≤ 0) := by omega
    have h2 : ¬(h - 0 ≤ r) := by omega
    rw [if_neg h1, if_neg h2]
    rfl
  | succ m ih =>
    intro r hr
    have hm' : 2 * m < h := by omega
    have hlen' : (swapPrefix h m v).length = h := by rw [swapPrefix_length, hlen]
    have hne : (1 + m : ℕ) ≠ h - (1 + m) := by omega
    have hrlen : r < (swapPrefix h m v).length := by omega
    rw [swapPrefix_succ, swapRows_getD _ hne hrlen]
    by_cases hr1 : r = 1 + m
    · subst hr1
      rw [if_pos rfl, ih hm' (h - (1 + m)) (by omega)]
      have c1 : ¬(1 ≤ h - (1 + m) ∧ h - (1 + m) ≤ m) := by omega
      have c3 : (1 ≤ 1 + m ∧ 1 + m ≤ m + 1) := by omega
      rw [if_neg c1, if_neg (show ¬(h - m ≤ h - (1 + m)) from by omega),
        if_pos c3]
    · rw [if_neg hr1]
      by_cases hr2 : r = h - (1 + m)
      · subst hr2
        rw [if_pos rfl, ih hm' (1 + m) (by omega)]
        have c1 : ¬(1 ≤ 1 + m ∧ 1 + m ≤ m) := by omega
        have c2 : ¬(h - m ≤ 1 + m) := by omega
        have c3 : h - (m + 1) ≤ h - (1 + m) := by omega
        rw [if_neg c1, if_neg c2,
          if_neg (show ¬(1 ≤ h - (1 + m) ∧ h - (1 + m) ≤ m + 1) from by omega),
          if_pos c3]
        congr 1
        omega
      · rw [if_neg hr2, ih hm' r hr]
        by_cases d1 : 1 ≤ r ∧ r ≤ m
        · rw [if_pos d1, if_pos (show 1 ≤ r ∧ r ≤ m + 1 from by omega)]
        · rw [if_neg d1]
          by_cases d2 : h - m ≤ r
          · rw [if_pos d2, if_neg (show ¬(1 ≤ r ∧ r ≤ m + 1) from by omega),
              if_pos (show h - (m + 1) ≤ r from by omega)]
          · rw [if_neg d2, if_neg (show ¬(1 ≤ r ∧ r ≤ m + 1) from by omega),
              if_neg (show ¬(h - (m + 1) ≤ r) from by omega)]

/-- The complete row-swap loop realizes index negation modulo the height
(for heights that are `1` or even, in particular powers of two). -/
theorem idftSwapLoop_getD (h : ℕ) (v : List F) (hlen : v.length = h)
    (hh : h = 1 ∨ h % 2 = 0) (hpos : 0 < h) :
    ∀ r, r < h → (idftSwapLoop h v).getD r 0 = v.getD ((h - r) % h) 0 := by
  intro r hr
  have heq : idftSwapLoop h v = swapPrefix h (h / 2 - 1) v := rfl
  rw [heq, swapPrefix_getD h (h / 2 - 1) v hlen (by omega) r hr]
  congr 1
  by_cases hr0 : r = 0
  · subst hr0
    rw [Nat.sub_zero, Nat.mod_self, if_neg (show ¬(1 ≤ 0 ∧ 0 ≤ h / 2 - 1) from by omega),
      if_neg (show ¬(h - (h / 2 - 1) ≤ 0) from by omega)]
  · have hmod : (h - r) % h = h - r := Nat.mod_eq_of_lt (by omega)
    rw [hmod]
    rcases hh with h1 | h2
    · exact absurd hr (by omega)
    · by_cases c1 : 1 ≤ r ∧ r ≤ h / 2 - 1
      · rw [if_pos c1]
      · rw [if_neg c1]
        by_cases c2 : h - (h / 2 - 1) ≤ r
        · rw [if_pos c2]
        · rw [if_neg c2]
          omega

end Dft

/-! ## DFT inversion over a two-adic subgroup -/

section DftInversion

variable {F : Type*} [Field F]

/-- Extensionality for columns via `getD`. -/
theorem list_ext_getD {l1 l2 : List F} (h : l1.length = l2.length)
    (he : ∀ i, i < l2.length → l1.getD i 0 = l2.getD i 0) : l1 = l2 := by
  apply List.ext_getElem h
  intro i h1 h2
  have hi := he i h2
  rwa [List.getD_eq_getElem l1 0 h1, List.getD_eq_getElem l2 0 h2] at hi

theorem getD_append_lt {c l : List F} {j : ℕ} (h : j < c.length) :
    (c ++ l).getD j 0 = c.getD j 0 := by
  rw [List.getD_eq_getElem?_getD, List.getElem?_append, if_pos h,
    ← List.getD_eq_getElem?_getD]

theorem cast_two_pow_ne_zero (G : TwoAdicGens F) (n : ℕ) :
    ((2 ^ n : ℕ) : F) ≠ 0 := by
  push_cast
  exact pow_ne_zero n G.two_ne_zero

theorem gen_pow_neg_index (G : TwoAdicGens F) {n : ℕ} (hn : n ≤ G.maxLog)
    {r : ℕ} (hr : r < 2 ^ n) :
    G.gen n ^ ((2 ^ n - r) % 2 ^ n) = (G.gen n ^ r)⁻¹ := by
  apply eq_inv_of_mul_eq_one_left
  rw [← pow_add]
  rcases Nat.eq_zero_or_pos r with hr0 | hrpos
  · subst hr0
    rw [Nat.sub_zero, Nat.mod_self]
    simp
  · rw [Nat.mod_eq_of_lt (by omega), show 2 ^ n - r + r = 2 ^ n from by omega]
    exact G.gen_pow_card hn

theorem idftCol_length (ω : F) (c : List F) : (idftCol ω c).length = c.length := by
  unfold idftCol idftSwapLoop
  rw [show ∀ v : List F, (List.range' 1 ((dftCol ω c).length / 2 - 1)).foldl
      (fun w r => swapRows w r ((dftCol ω c).length - r)) v =
      swapPrefix (dftCol ω c).length ((dftCol ω c).length / 2 - 1) v from fun _ => rfl,
    swapPrefix_length, divideByHeight_length, dftCol_length]

/-- `idft_batch` computes the true inverse DFT: entry `r` of `idftCol ω c` is
`(∑_k c_k (ω^r)⁻¹^k) / h`. -/
theorem idftCol_getD (G : TwoAdicGens F) {n : ℕ} (hn : n ≤ G.maxLog)
    (c : List F) (hc : c.length = 2 ^ n) {r : ℕ} (hr : r < 2 ^ n) :
    (idftCol (G.gen n) c).getD r 0 =
      (∑ k ∈ Finset.range (2 ^ n), c.getD k 0 * ((G.gen n ^ r)⁻¹) ^ k) /
        ((2 ^ n : ℕ) : F) := by
  have hdlen : (dftCol (G.gen n) c).length = 2 ^ n := by rw [dftCol_length, hc]
  have hvlen : (divideByHeight (dftCol (G.gen n) c)).length = 2 ^ n := by
    rw [divideByHeight_length, hdlen]
  have hparity : (2 : ℕ) ^ n = 1 ∨ (2 : ℕ) ^ n % 2 = 0 := by
    rcases Nat.eq_zero_or_pos n with h0 | hplus
    · left; rw [h0]; rfl
    · right
      obtain ⟨m, hm⟩ : ∃ m, n = m + 1 := ⟨n - 1, by omega⟩
      rw [hm, pow_succ]
      omega
  unfold idftCol
  rw [hdlen]
  rw [idftSwapLoop_getD (2 ^ n) _ hvlen hparity (by positivity) r hr,
    divideByHeight_getD _ (by rw [hdlen]; exact Nat.mod_lt _ (by positivity)),
    hdlen, dftCol_getD _ _ (by rw [hc]; exact Nat.mod_lt _ (by positivity)), hc]
  congr 1
  apply Finset.sum_congr rfl
  intro k _
  congr 1
  rw [pow_mul, gen_pow_neg_index G hn hr]

/-- Orthogonality of subgroup characters: `∑_j (ω^i (ω^k)⁻¹)^j` is `2^n` when
`i = k` and `0` otherwise. -/
theorem orthogonality (G : TwoAdicGens F) {n : ℕ} (hn : n ≤ G.maxLog)
    {i k : ℕ} (hi : i < 2 ^ n) (hk : k < 2 ^ n) :
    ∑ j ∈ Finset.range (2 ^ n), (G.gen n ^ i * (G.gen n ^ k)⁻¹) ^ j =
      if i = k then ((2 ^ n : ℕ) : F) else 0 := by
  have hωk : G.gen n ^ k ≠ 0 := pow_ne_zero _ (G.gen_ne_zero hn)
  by_cases hik : i = k
  · subst hik
    rw [if_pos rfl, mul_inv_cancel₀ (pow_ne_zero _ (G.gen_ne_zero hn))]
    simp
  · rw [if_neg hik]
    apply TwoAdicGens.sum_pow_root_of_ne
    · rw [mul_pow, ← pow_mul, mul_comm i (2 ^ n), pow_mul, G.gen_pow_card hn,
        one_pow, inv_pow, ← pow_mul, mul_comm k (2 ^ n), pow_mul,
        G.gen_pow_card hn, one_pow, inv_one, one_mul]
    · intro hcontra
      apply hik
      apply G.gen_pow_injective hn hi hk
      rw [← div_eq_mul_inv] at hcontra
      exact (div_eq_one_iff_eq hωk).mp hcontra

/-- One direction of C6's round trip: `idft (dft c) = c` entrywise. -/
theorem idftCol_dftCol_getD (G : TwoAdicGens F) {n : ℕ} (hn : n ≤ G.maxLog)
    (c : List F) (hc : c.length = 2 ^ n) {r : ℕ} (hr : r < 2 ^ n) :
    (idftCol (G.gen n) (dftCol (G.gen n) c)).getD r 0 = c.getD r 0 := by
  have hdlen : (dftCol (G.gen n) c).length = 2 ^ n := by rw [dftCol_length, hc]
  rw [idftCol_getD G hn _ hdlen hr]
  have hsum : ∀ k, k < 2 ^ n →
      (dftCol (G.gen n) c).getD k 0 * ((G.gen n ^ r)⁻¹) ^ k =
      ∑ m ∈ Finset.range (2 ^ n),
        c.getD m 0 * (G.gen n ^ m * (G.gen n ^ r)⁻¹) ^ k := by
    intro k hk
    rw [dftCol_getD _ _ (by omega : k < c.length), hc, Finset.sum_mul]
    apply Finset.sum_congr rfl
    intro m _
    rw [mul_assoc, mul_pow]
    congr 2
    rw [← pow_mul, mul_comm m k, pow_mul]
  rw [Finset.sum_congr rfl fun k hk => hsum k (Finset.mem_range.mp hk),
    Finset.sum_comm]
  have hinner : ∀ m ∈ Finset.range (2 ^ n),
      (∑ k ∈ Finset.range (2 ^ n),
        c.getD m 0 * (G.gen n ^ m * (G.gen n ^ r)⁻¹) ^ k) =
      if m = r then c.getD m 0 * ((2 ^ n : ℕ) : F) else 0 := by
    intro m hm
    rw [← Finset.mul_sum, orthogonality G hn (Finset.mem_range.mp hm) hr,
      mul_ite, mul_zero]
  rw [Finset.sum_congr rfl hinner,
    Finset.sum_ite_eq' (Finset.range (2 ^ n)) r fun m => c.getD m 0 * ((2 ^ n : ℕ) : F)]
  rw [if_pos (Finset.mem_range.mpr hr), mul_div_assoc,
    div_self (cast_two_pow_ne_zero G n), mul_one]

/-- The other direction: `dft (idft c) = c` entrywise. -/
theorem dftCol_idftCol_getD (G : TwoAdicGens F) {n : ℕ} (hn : n ≤ G.maxLog)
    (c : List F) (hc : c.length = 2 ^ n) {i : ℕ} (hi : i < 2 ^ n) :
    (dftCol (G.gen n) (idftCol (G.gen n) c)).getD i 0 = c.getD i 0 := by
  have hilen : (idftCol (G.gen n) c).length = 2 ^ n := by rw [idftCol_length, hc]
  rw [dftCol_getD _ _ (by omega : i < (idftCol (G.gen n) c).length), hilen]
  have hkey : ∀ j k : ℕ,
      ((G.gen n ^ j)⁻¹) ^ k * G.gen n ^ (i * j) =
        (G.gen n ^ i * (G.gen n ^ k)⁻¹) ^ j := by
    intro j k
    rw [mul_pow, inv_pow, inv_pow, ← pow_mul, ← pow_mul, ← pow_mul,
      mul_comm j k, mul_comm]
  have hterm : ∀ j, j < 2 ^ n →
      (idftCol (G.gen n) c).getD j 0 * G.gen n ^ (i * j) =
      ∑ k ∈ Finset.range (2 ^ n),
        c.getD k 0 * (G.gen n ^ i * (G.gen n ^ k)⁻¹) ^ j / ((2 ^ n : ℕ) : F) := by
    intro j hj
    rw [idftCol_getD G hn c hc hj, div_mul_eq_mul_div, Finset.sum_mul,
      Finset.sum_div]
    apply Finset.sum_congr rfl
    intro k _
    rw [mul_assoc, hkey j k]
  rw [Finset.sum_congr rfl fun j hj => hterm j (Finset.mem_range.mp hj),
    Finset.sum_comm]
  have hinner : ∀ k ∈ Finset.range (2 ^ n),
      (∑ j ∈ Finset.range (2 ^ n),
        c.getD k 0 * (G.gen n ^ i * (G.gen n ^ k)⁻¹) ^ j / ((2 ^ n : ℕ) : F)) =
      if k = i then c.getD k 0 else 0 := by
    intro k hk
    rw [← Finset.sum_div, ← Finset.mul_sum,
      orthogonality G hn hi (Finset.mem_range.mp hk)]
    by_cases hik : i = k
    · rw [if_pos hik, if_pos hik.symm, mul_div_assoc,
        div_self (cast_two_pow_ne_zero G n), mul_one]
    · rw [if_neg hik, if_neg (fun h => hik h.symm), mul_zero, zero_div]
  rw [Finset.sum_congr rfl hinner,
    Finset.sum_ite_eq' (Finset.range (2 ^ n)) i fun k => c.getD k 0,
    if_pos (Finset.mem_range.mpr hi)]

end DftInversion

/-! ## Batch versions and the C5/C6 claims -/

section DftClaims

variable {F : Type*} [Field F]

/-- `dft_batch` on a matrix given as its list of columns. -/
def dftBatch (ω : F) (M : List (List F)) : List (List F) := M.map (dftCol ω)

/-- `idft_batch` on a matrix given as its list of columns. -/
def idftBatch (ω : F) (M : List (List F)) : List (List F) := M.map (idftCol ω)

/-- `lde_batch` on a matrix given as its list of columns. -/
def ldeBatch (ω ω' : F) (addedBits : ℕ) (M : List (List F)) : List (List F) :=
  M.map (ldeCol ω ω' addedBits)

theorem getD_append_ge {c l : List F} {j : ℕ} (h : c.length ≤ j) :
    (c ++ l).getD j 0 = l.getD (j - c.length) 0 := by
  rw [List.getD_eq_getElem?_getD, List.getElem?_append, if_neg (by omega),
    ← List.getD_eq_getElem?_getD]

theorem getD_replicate_zero (m j : ℕ) : (List.replicate m (0 : F)).getD j 0 = 0 := by
  by_cases h : j < m
  · rw [List.getD_eq_getElem?_getD, List.getElem?_replicate, if_pos h]
    rfl
  · rw [List.getD_eq_default]
    simpa using Nat.le_of_not_lt h

/-- Zero-padding a coefficient list does not change the polynomial it
evaluates to. -/
theorem sum_pad_eq_evalPoly (c : List F) {p m : ℕ} (hm : c.length ≤ m)
    (x : F) :
    ∑ j ∈ Finset.range m,
      (c ++ List.replicate p (0 : F)).getD j 0 * x ^ j =
    evalPoly c x := by
  unfold evalPoly
  rw [← Finset.sum_subset (Finset.range_subset.mpr hm)]
  · apply Finset.sum_congr rfl
    intro j hj
    rw [getD_append_lt (Finset.mem_range.mp hj)]
  · intro j _ hj
    have hge : c.length ≤ j := Nat.le_of_not_lt (by simpa using hj)
    rw [getD_append_ge hge, getD_replicate_zero, zero_mul]

theorem dftCol_eq_evalPoly (ω : F) (c : List F) :
    dftCol ω c = (List.range c.length).map fun i => evalPoly c (ω ^ i) := by
  unfold dftCol evalPoly
  apply List.map_congr_left
  intro i _
  apply Finset.sum_congr rfl
  intro j _
  rw [← pow_mul]

theorem getD_map_range {f : ℕ → F} {m i : ℕ} (hi : i < m) :
    ((List.range m).map f).getD i 0 = f i := by
  rw [List.getD_eq_getElem?_getD, List.getElem?_map, List.getElem?_range hi]
  rfl

/-- List-level round trip `idft (dft c) = c`. -/
theorem idftCol_dftCol (G : TwoAdicGens F) {n : ℕ} (hn : n ≤ G.maxLog)
    (c : List F) (hc : c.length = 2 ^ n) :
    idftCol (G.gen n) (dftCol (G.gen n) c) = c := by
  apply list_ext_getD
  · rw [idftCol_length, dftCol_length]
  · intro i hi
    exact idftCol_dftCol_getD G hn c hc (by omega)

/-- List-level round trip `dft (idft c) = c`. -/
theorem dftCol_idftCol (G : TwoAdicGens F) {n : ℕ} (hn : n ≤ G.maxLog)
    (c : List F) (hc : c.length = 2 ^ n) :
    dftCol (G.gen n) (idftCol (G.gen n) c) = c := by
  apply list_ext_getD
  · rw [dftCol_length, idftCol_length]
  · intro i hi
    exact dftCol_idftCol_getD G hn c hc (by omega)

theorem cosetShiftCols_length (s : F) (c : List F) :
    (cosetShiftCols s c).length = c.length := by
  simp [cosetShiftCols]

theorem cosetShiftCols_getD (s : F) (c : List F) {i : ℕ} (hi : i < c.length) :
    (cosetShiftCols s c).getD i 0 = c.getD i 0 * s ^ i := by
  unfold cosetShiftCols
  rw [List.getD_eq_getElem?_getD, List.getElem?_mapIdx,
    List.getElem?_eq_getElem hi]
  rw [List.getD_eq_getElem c 0 hi]
  rfl

/-- C6's coset round trip at column level. -/
theorem cosetIdftCol_cosetDftCol (G : TwoAdicGens F) {n : ℕ} (hn : n ≤ G.maxLog)
    (v : List F) (hv : v.length = 2 ^ n) {s : F} (hs : s ≠ 0) :
    cosetIdftCol (G.gen n) s (cosetDftCol (G.gen n) s v) = v := by
  unfold cosetIdftCol cosetDftCol
  rw [idftCol_dftCol G hn _ (by rw [cosetShiftCols_length, hv])]
  apply list_ext_getD
  · rw [cosetShiftCols_length, cosetShiftCols_length]
  · intro i hi
    rw [cosetShiftCols_getD _ _ (by rw [cosetShiftCols_length]; omega),
      cosetShiftCols_getD _ _ (by omega), mul_assoc, inv_pow,
      mul_inv_cancel₀ (pow_ne_zero _ hs), mul_one]

/-- Column-level C5: `lde` maps the evaluations of a degree-`< 2^n`
polynomial on the `2^n` subgroup to its evaluations on the `2^(n+k)`
subgroup. -/
theorem ldeCol_eval (G : TwoAdicGens F) {n k : ℕ} (hnk : n + k ≤ G.maxLog)
    (c : List F) (hc : c.length = 2 ^ n) :
    ldeCol (G.gen n) (G.gen (n + k)) k
      ((List.range (2 ^ n)).map fun i => evalPoly c (G.gen n ^ i)) =
    (List.range (2 ^ (n + k))).map fun i => evalPoly c (G.gen (n + k) ^ i) := by
  have hn : n ≤ G.maxLog := by omega
  have hevals : (List.range (2 ^ n)).map (fun i => evalPoly c (G.gen n ^ i)) =
      dftCol (G.gen n) c := by
    rw [dftCol_eq_evalPoly, hc]
  rw [hevals]
  unfold ldeCol
  rw [idftCol_dftCol G hn c hc, dftCol_length, hc]
  have hshift : (2 : ℕ) ^ n <<< k = 2 ^ (n + k) := by
    rw [Nat.shiftLeft_eq, pow_add]
  have hplen : (c ++ List.replicate (2 ^ n <<< k - 2 ^ n) (0 : F)).length =
      2 ^ (n + k) := by
    rw [List.length_append, List.length_replicate, hc, hshift]
    have : (2 : ℕ) ^ n ≤ 2 ^ (n + k) := Nat.pow_le_pow_right (by norm_num) (by omega)
    omega
  apply list_ext_getD
  · rw [dftCol_length, hplen, List.length_map, List.length_range]
  · intro i hi
    rw [List.length_map, List.length_range] at hi
    rw [getD_map_range hi, dftCol_getD _ _ (by omega), hplen]
    rw [Finset.sum_congr rfl fun j _ => by rw [pow_mul]]
    have hle : c.length ≤ 2 ^ (n + k) := by
      rw [hc]
      exact Nat.pow_le_pow_right (by norm_num) (by omega)
    exact sum_pad_eq_evalPoly c hle _

/-- **C6.** For every matrix `M` with power-of-two height within the field's
two-adic order, `dft_batch (idft_batch M) == M`, and `idft (dft v) == v`
element-wise; and for every vector `v` and nonzero shift `s`,
`coset_idft (coset_dft v s) s == v`. -/
theorem C6_dft_round_trips (G : TwoAdicGens F) {n : ℕ} (hn : n ≤ G.maxLog)
    (M : List (List F)) (hM : ∀ col ∈ M, col.length = 2 ^ n)
    (v : List F) (hv : v.length = 2 ^ n) {s : F} (hs : s ≠ 0) :
    dftBatch (G.gen n) (idftBatch (G.gen n) M) = M ∧
    idftCol (G.gen n) (dftCol (G.gen n) v) = v ∧
    cosetIdftCol (G.gen n) s (cosetDftCol (G.gen n) s v) = v := by
  refine ⟨?_, idftCol_dftCol G hn v hv, cosetIdftCol_cosetDftCol G hn v hv hs⟩
  unfold dftBatch idftBatch
  rw [List.map_map]
  conv_rhs => rw [← List.map_id M]
  apply List.map_congr_left
  intro c hc
  exact dftCol_idftCol G hn c (hM c hc)

/-- **C5.** For every polynomial `p(X)` of degree `< 2^n` and every `k`,
applying `lde_batch` (idft, pad rows with zeros to `height << k`, dft) to the
matrix of `p`'s evaluations on the size-`2^n` two-adic subgroup yields
exactly `p`'s evaluations on the size-`2^(n+k)` two-adic subgroup. -/
theorem C5_lde_batch_evaluations (G : TwoAdicGens F) {n k : ℕ}
    (hnk : n + k ≤ G.maxLog) (cs : List (List F))
    (hcs : ∀ c ∈ cs, c.length = 2 ^ n) :
    ldeBatch (G.gen n) (G.gen (n + k)) k
      (cs.map fun c => (List.range (2 ^ n)).map fun i => evalPoly c (G.gen n ^ i)) =
    cs.map fun c =>
      (List.range (2 ^ (n + k))).map fun i => evalPoly c (G.gen (n + k) ^ i) := by
  unfold ldeBatch
  rw [List.map_map]
  apply List.map_congr_left
  intro c hc
  exact ldeCol_eval G hnk c (hcs c hc)

end DftClaims

/-! ## A concrete two-adic field for witnesses: the prime field with 17
elements (two-adicity 4), with a kernel-computable inverse `x ↦ x^15`. -/

def F17 : Type := ZMod 17

instance : DecidableEq F17 := inferInstanceAs (DecidableEq (ZMod 17))

instance : Fintype F17 := inferInstanceAs (Fintype (ZMod 17))

instance : CommRing F17 := inferInstanceAs (CommRing (ZMod 17))

instance : Field F17 :=
  { inferInstanceAs (CommRing F17) with
    inv := fun x => x ^ 15
    exists_pair_ne := ⟨0, 1, by decide⟩
    mul_inv_cancel := by decide
    inv_zero := by decide
    nnqsmul := _
    qsmul := _ }

/-- The canonical two-adic generator family of the 17-element field:
`3` has multiplicative order `16`, and successive squares give the smaller
levels. -/
def gens17 : TwoAdicGens F17 :=
  ⟨fun n =>
    if n = 0 then 1 else if n = 1 then 16 else if n = 2 then 13
    else if n = 3 then 9 else if n = 4 then 3 else 0,
   4, rfl, fun _ => by decide,
   fun n hn => by
    have h3 : n ≤ 3 := by omega
    interval_cases n <;> decide,
   by decide⟩

/-- Concrete instance of C6 on the 17-element field. -/
theorem C6_dft_round_trips_witness :
    dftBatch (gens17.gen 1) (idftBatch (gens17.gen 1) [[1, 2], [3, 4]]) =
        [[1, 2], [3, 4]] ∧
    idftCol (gens17.gen 1) (dftCol (gens17.gen 1) [5, 6]) = [5, 6] ∧
    cosetIdftCol (gens17.gen 1) 2 (cosetDftCol (gens17.gen 1) 2 [5, 6]) =
      [5, 6] :=
  C6_dft_round_trips gens17 (by decide) [[1, 2], [3, 4]] (by decide) [5, 6]
    (by decide) (by decide)

/-- Concrete instance of C5 on the 17-element field. -/
theorem C5_lde_batch_evaluations_witness :
    ldeBatch (gens17.gen 1) (gens17.gen (1 + 1)) 1
        ([[1, 2]].map fun c =>
          (List.range (2 ^ 1)).map fun i => evalPoly c (gens17.gen 1 ^ i)) =
      [[1, 2]].map fun c =>
        (List.range (2 ^ (1 + 1))).map fun i =>
          evalPoly c (gens17.gen (1 + 1) ^ i) :=
  C5_lde_batch_evaluations gens17 (by decide) [[1, 2]] (by decide)

/-! ## `WrappedMatrix` (`tensor-pcs/src/wrapped_matrix.rs`) -/

/-- The dimensions exposed by the `Matrix` trait of `p3_matrix`: `width()`
and `height()`. -/
structure MatrixDims where
  width : ℕ
  height : ℕ

/-- The `WrappedMatrix` view over an inner matrix. -/
structure WrappedMatrix where
  inner : MatrixDims
  wraps : ℕ

namespace WrappedMatrix

/-- `WrappedMatrix::new` (source lines 15–22): asserts
`inner.height() % wraps == 0` (panic modelled as `none`). -/
def new (inner : MatrixDims) (wraps : ℕ) : Option WrappedMatrix :=
  if inner.height % wraps = 0 then some ⟨inner, wraps⟩ else none

/-- `width()` of the wrapped view (source lines 29–31):
`inner.width() * wraps`. -/
def width (m : WrappedMatrix) : ℕ := m.inner.width * m.wraps

/-- `height()` of the wrapped view (source lines 33–35): the source computes
`inner.width() / wraps` (note: `width`, not `height`). -/
def height (m : WrappedMatrix) : ℕ := m.inner.width / m.wraps

end WrappedMatrix

/-- **C10.** The claim states `height() == M.height() / w` (and hence entry
count preservation), which is the evident intent of the `new` assertion
`inner.height() % wraps == 0`; but the code computes `inner.width() / wraps`.
On the inner matrix of width 2 and height 4 with `wraps = 2`, `new` succeeds,
`width()` is `4` as claimed, but `height()` is `1` instead of the claimed
`4 / 2 = 2`, so the wrapped view has `4` entries instead of `8`. -/
theorem C10_wrapped_matrix_height_bug :
    ∃ w : WrappedMatrix,
      WrappedMatrix.new ⟨2, 4⟩ 2 = some w ∧
      w.width = 2 * 2 ∧
      w.height = 1 ∧
      w.height ≠ 4 / 2 ∧
      w.width * w.height ≠ 2 * 4 :=
  ⟨⟨⟨2, 4⟩, 2⟩, rfl, rfl, rfl, by decide, by decide⟩

/-! ## The uni-stark prover (`uni-stark/src/prover.rs`)

The challenger, PCS, and AIR are external trait objects (spec §4.2–§4.4);
they are modelled as parameters.  The challenger records its event sequence
so the Fiat-Shamir transcript order (claim C2) is visible. -/

/-- A Fiat-Shamir transcript event of the prover's challenger. -/
inductive FSEvent (F C : Type*)
  | obsVal (v : F)
  | obsCommit (c : C)
  | sample

/-- The challenger, modelled from the spec (§4.3): a state machine with
`observe` and `sample`; here the absorbed/squeezed events are logged and
sampled challenges come from a stream. -/
structure Challenger (F C : Type*) where
  log : List (FSEvent F C)
  stream : ℕ → F
  ctr : ℕ

namespace Challenger

variable {F C : Type*}

def observe (ch : Challenger F C) (v : F) : Challenger F C :=
  { ch with log := ch.log ++ [FSEvent.obsVal v] }

def observeCommit (ch : Challenger F C) (c : C) : Challenger F C :=
  { ch with log := ch.log ++ [FSEvent.obsCommit c] }

def observeSlice (ch : Challenger F C) (vs : List F) : Challenger F C :=
  { ch with log := ch.log ++ vs.map FSEvent.obsVal }

def sample (ch : Challenger F C) : F × Challenger F C :=
  (ch.stream ch.ctr,
    { ch with log := ch.log ++ [FSEvent.sample], ctr := ch.ctr + 1 })

end Challenger

section UniStark

variable {F : Type*} [Field F]

/-- Fuel-based floor base-2 logarithm (kernel-computable, unlike
`Nat.log2`). -/
def ilog2Fuel : ℕ → ℕ → ℕ
  | 0, _ => 0
  | fuel + 1, n => if n ≥ 2 then ilog2Fuel fuel (n / 2) + 1 else 0

/-- Floor base-2 logarithm. -/
def ilog2 (n : ℕ) : ℕ := ilog2Fuel n n

theorem ilog2Fuel_eq_log2 :
    ∀ fuel n, n ≤ fuel → ilog2Fuel fuel n = Nat.log2 n := by
  intro fuel
  induction fuel with
  | zero =>
    intro n hn
    interval_cases n
    simp [ilog2Fuel, Nat.log2]
  | succ fuel ih =>
    intro n hn
    rw [show ilog2Fuel (fuel + 1) n =
      if n ≥ 2 then ilog2Fuel fuel (n / 2) + 1 else 0 from rfl]
    rw [Nat.log2]
    by_cases h2 : n ≥ 2
    · rw [if_pos h2, if_pos h2, ih (n / 2) (by omega)]
    · rw [if_neg h2, if_neg h2]

theorem ilog2_eq_log2 (n : ℕ) : ilog2 n = Nat.log2 n :=
  ilog2Fuel_eq_log2 n n le_rfl

theorem ilog2_two_pow (k : ℕ) : ilog2 (2 ^ k) = k := by
  rw [ilog2_eq_log2, Nat.log2_eq_log_two, Nat.log_pow (by norm_num)]

/-- `log2_strict_usize` of `p3_util` (not among the provided sources;
modelled from the spec's precondition: the height must be a power of two,
anything else is a programmer error / abort). -/
def log2Strict (n : ℕ) : Option ℕ :=
  if 2 ^ ilog2 n = n then some (ilog2 n) else none

/-- `log2_ceil_usize` of `p3_util` (not among the provided sources; modelled
from the spec: `⌈log2 n⌉`). -/
def log2Ceil (n : ℕ) : ℕ := if n ≤ 1 then 0 else ilog2 (n - 1) + 1

/-- Checked `usize` subtraction: Rust `a - b` aborts on underflow (debug
assertion; the spec lists constraint degree 0 as an abort condition). -/
def checkedSub (a b : ℕ) : Option ℕ :=
  if b ≤ a then some (a - b) else none

/-- The running fold of the constraint accumulator: for each emitted
constraint `a ← a·α + c_k` (the `ProverConstraintFolder` is outside the
provided sources; modelled from the spec §4.4 step 3). -/
def foldConstraints (α : F) (K : ℕ) (c : ℕ → F) : F :=
  (List.range K).foldl (fun a k => a * α + c k) 0

/-- `quotient_values` (`uni-stark/src/prover.rs` lines 253–338) at scalar
granularity: for each index `i` of the quotient domain, fold the `K`
selector-applied constraint values through the accumulator and multiply by
`inv_vanishing i`.  (The SIMD packing of the source processes `WIDTH` such
indices per stride; it does not change the per-index value.) -/
def quotientValues (α : F) (K : ℕ) (constraints : ℕ → ℕ → F)
    (quotientSize : ℕ) (invVan : ℕ → F) : List F :=
  (List.range quotientSize).map fun i =>
    foldConstraints α K (fun k => constraints k i) * invVan i

/-- The reversed α-power table precomputed by the source
(`alpha_powers.reverse()`, lines 284–285). -/
def alphaPowersRev (α : F) (K : ℕ) : List F :=
  ((List.range K).map fun k => α ^ k).reverse

theorem foldConstraints_eq_sum (α : F) (K : ℕ) (c : ℕ → F) :
    foldConstraints α K c = ∑ k ∈ Finset.range K, α ^ (K - 1 - k) * c k := by
  induction K with
  | zero => simp [foldConstraints]
  | succ K ih =>
    have hstep : foldConstraints α (K + 1) c = foldConstraints α K c * α + c K := by
      unfold foldConstraints
      rw [List.range_succ, List.foldl_append]
      rfl
    rw [hstep, ih, Finset.sum_range_succ, Finset.sum_mul]
    congr 1
    · apply Finset.sum_congr rfl
      intro k hk
      have hkK : k < K := Finset.mem_range.mp hk
      rw [show K + 1 - 1 - k = (K - 1 - k) + 1 from by omega, pow_succ]
      ring
    · rw [show K + 1 - 1 - K = 0 from by omega, pow_zero, one_mul]

theorem alphaPowersRev_getD (α : F) (K : ℕ) {k : ℕ} (hk : k < K) :
    (alphaPowersRev α K).getD k 0 = α ^ (K - 1 - k) := by
  unfold alphaPowersRev
  have hlen : ((List.range K).map fun j => α ^ j).length = K := by simp
  have hk' : k < ((List.range K).map fun j => α ^ j).length := by omega
  rw [List.getD_eq_getElem _ 0 (by simpa using hk'), List.getElem_reverse]
  rw [← List.getD_eq_getElem _ 0, hlen, getD_map_range (by omega)]

/-- **C3.** For every index `i` of the quotient domain (points
`x_j = shift · g^j`), the value produced by `quotient_values` equals
`(∑_{k<K} α^(K-1-k) · c_k(i)) · inv_vanishing_i` with
`inv_vanishing_i = 1 / (x_i^(2^n) - 1)`. -/
theorem C3_quotient_values_formula (α : F) (K : ℕ) (constraints : ℕ → ℕ → F)
    (quotientSize n : ℕ) (shift g : F) {i : ℕ} (hi : i < quotientSize) :
    (quotientValues α K constraints quotientSize
        (fun j => ((shift * g ^ j) ^ 2 ^ n - 1)⁻¹)).getD i 0 =
      (∑ k ∈ Finset.range K, α ^ (K - 1 - k) * constraints k i) *
        ((shift * g ^ i) ^ 2 ^ n - 1)⁻¹ := by
  unfold quotientValues
  rw [getD_map_range hi, foldConstraints_eq_sum]

/-- Concrete instance of C3 on the 17-element field. -/
theorem C3_quotient_values_formula_witness :
    (quotientValues (3 : F17) 2 (fun k i => (k : F17) + (i : F17)) 4
        (fun j => (((2 : F17) * 13 ^ j) ^ 2 ^ 1 - 1)⁻¹)).getD 2 0 =
      (∑ k ∈ Finset.range 2, (3 : F17) ^ (2 - 1 - k) * ((k : F17) + (2 : ℕ))) *
        (((2 : F17) * 13 ^ 2) ^ 2 ^ 1 - 1)⁻¹ :=
  C3_quotient_values_formula (3 : F17) 2 (fun k i => (k : F17) + (i : F17)) 4 1
    2 13 (by decide)

/-- The pair of commitments of the emitted proof. -/
structure Commitments (C : Type*) where
  trace : C
  quotientChunks : C

/-- The opened evaluations of the emitted proof. -/
structure OpenedValues (F : Type*) where
  traceLocal : List F
  traceNext : List F
  quotientChunks : List (List F)

/-- The complete STARK proof object assembled by `prove`
(lines 244–249 of `uni-stark/src/prover.rs`). -/
structure StarkProof (F C OP : Type*) where
  commitments : Commitments C
  openedValues : OpenedValues F
  openingProof : OP
  degreeBits : ℕ

/-- The AIR as the prover consumes it: the degrees of its symbolic
constraints (symbolic evaluation is external) and the numeric value of
constraint `k` at quotient-domain index `i` with selectors applied (the
`ProverConstraintFolder` and packed evaluation are external; modelled from
the spec §4.4). -/
structure AirData (F : Type*) where
  symbolicDegrees : List ℕ
  constraints : ℕ → ℕ → F

/-- The polynomial commitment scheme operations `prove` calls, modelled from
the spec (§4.1–§4.2) as opaque functions: commitment, the precomputed
selector inverse-vanishings, chunk splitting, next-point, and the batch
opening (which drives the rest of the transcript). -/
structure PcsOps (F C TD QD OP : Type*) where
  commitTrace : List (List F) → C × TD
  invVan : ℕ → F
  splitEvals : ℕ → List F → List (List F)
  commitQuotient : List (List F) → C × QD
  nextPoint : F → F
  openAll : TD → QD → F → F → Challenger F C →
    (List (List (List (List F))) × OP × Challenger F C)

/-- The uni-stark `prove` (`uni-stark/src/prover.rs` lines 77–250), with the
exact sequence of challenger interactions of the source: compute
`log_degree` (abort if the height is not a power of two), derive the
quotient degree from the symbolic constraint degrees (abort on `usize`
underflow when the maximum degree is 0), commit the trace, observe
`log_degree`, the trace commitment, then the public values, sample `α`,
compute and split the quotient values, commit the chunks, observe that
commitment, sample `ζ`, and hand the challenger to the PCS opening. -/
def prove {C TD QD OP : Type*} (pcs : PcsOps F C TD QD OP) (air : AirData F)
    (trace : List (List F)) (publicValues : List F)
    (ch : Challenger F C) : Option (StarkProof F C OP × Challenger F C) :=
  match log2Strict trace.length with
  | none => none
  | some logDegree =>
    match checkedSub (air.symbolicDegrees.foldl max 0) 1 with
    | none => none
    | some cdSub =>
      let logQuotientDegree := log2Ceil cdSub
      let quotientDegree := 2 ^ logQuotientDegree
      let tc := pcs.commitTrace trace
      let ch1 := ch.observe ((logDegree : F))
      let ch2 := ch1.observeCommit tc.1
      let ch3 := ch2.observeSlice publicValues
      let s1 := ch3.sample
      let qvals := quotientValues s1.1 air.symbolicDegrees.length
        air.constraints (2 ^ (logDegree + logQuotientDegree)) pcs.invVan
      let chunks := pcs.splitEvals quotientDegree qvals
      let qc := pcs.commitQuotient chunks
      let ch5 := s1.2.observeCommit qc.1
      let s2 := ch5.sample
      let opened := pcs.openAll tc.2 qc.2 s2.1 (pcs.nextPoint s2.1) s2.2
      some ({ commitments := { trace := tc.1, quotientChunks := qc.1 },
              openedValues :=
                { traceLocal := ((opened.1.getD 0 []).getD 0 []).getD 0 [],
                  traceNext := ((opened.1.getD 0 []).getD 0 []).getD 1 [],
                  quotientChunks :=
                    (opened.1.getD 1 []).map fun v => v.getD 0 [] },
              openingProof := opened.2.1,
              degreeBits := logDegree },
            opened.2.2)

/-- Composing "the final log extends `c.log`" with "`c.log` is the expected
prefix" gives the transcript shape. -/
theorem exists_tail_trans {α : Type*} {l p : List α} {c : List α} {L : List α}
    (h1 : ∃ t, L = c ++ t) (h2 : c = l ++ p) : ∃ t, L = l ++ p ++ t := by
  obtain ⟨t, ht⟩ := h1
  exact ⟨t, by rw [ht, h2]⟩

theorem log2Strict_eq_none {n : ℕ} (h : ¬ ∃ k, n = 2 ^ k) :
    log2Strict n = none := by
  unfold log2Strict
  rw [if_neg]
  intro hc
  exact h ⟨ilog2 n, hc.symm⟩

/-- **C7.** `prove` never returns a partial proof: it either returns a
complete `StarkProof` or aborts (`none`); in particular it aborts when the
trace height is not a power of two and when the AIR's maximum constraint
degree is 0 (the `constraint_degree - 1` underflow). -/
theorem C7_prove_never_partial {C TD QD OP : Type*} (pcs : PcsOps F C TD QD OP)
    (air : AirData F) (trace : List (List F)) (publicValues : List F)
    (ch : Challenger F C) :
    ((∃ pf chF, prove pcs air trace publicValues ch = some (pf, chF)) ∨
      prove pcs air trace publicValues ch = none) ∧
    ((¬ ∃ k, trace.length = 2 ^ k) →
      prove pcs air trace publicValues ch = none) ∧
    (air.symbolicDegrees.foldl max 0 = 0 →
      prove pcs air trace publicValues ch = none) := by
  refine ⟨?_, ?_, ?_⟩
  · cases h : prove pcs air trace publicValues ch with
    | none => exact Or.inr rfl
    | some v => exact Or.inl ⟨v.1, v.2, rfl⟩
  · intro hnp
    unfold prove
    rw [log2Strict_eq_none hnp]
  · intro hdeg
    unfold prove
    cases hl : log2Strict trace.length with
    | none => rfl
    | some ld =>
      rw [hdeg]
      rfl

/-- **C2.** In the STARK prover, the challenger interactions happen exactly
in this order with nothing interleaved: observe `log_degree` as a field
element, observe the trace commitment, observe every public value, sample
`α`, observe the quotient-chunks commitment, sample `ζ`; after that the
opening call drives the remaining transcript (`openTail`). -/
theorem C2_transcript_order {C TD QD OP : Type*} (pcs : PcsOps F C TD QD OP)
    (air : AirData F) (trace : List (List F)) (publicValues : List F)
    (ch : Challenger F C)
    (hopen : ∀ td qd z zn c, ∃ tail,
      ((pcs.openAll td qd z zn c).2.2).log = c.log ++ tail)
    (pf : StarkProof F C OP) (chF : Challenger F C)
    (hsome : prove pcs air trace publicValues ch = some (pf, chF)) :
    ∃ openTail,
      chF.log = ch.log ++
        ([FSEvent.obsVal ((pf.degreeBits : F)),
          FSEvent.obsCommit pf.commitments.trace] ++
          publicValues.map FSEvent.obsVal ++
          [FSEvent.sample, FSEvent.obsCommit pf.commitments.quotientChunks,
            FSEvent.sample]) ++ openTail := by
  unfold prove at hsome
  cases hld : log2Strict trace.length with
  | none =>
    rw [hld] at hsome
    exact absurd hsome (by simp)
  | some logDegree =>
    rw [hld] at hsome
    cases hcs : checkedSub (air.symbolicDegrees.foldl max 0) 1 with
    | none =>
      rw [hcs] at hsome
      exact absurd hsome (by simp)
    | some cdSub =>
      rw [hcs] at hsome
      simp only [Option.some.injEq, Prod.mk.injEq] at hsome
      obtain ⟨hpf, hchF⟩ := hsome
      subst hpf
      subst hchF
      refine exists_tail_trans (hopen _ _ _ _ _) ?_
      simp [Challenger.observe, Challenger.observeCommit,
        Challenger.observeSlice, Challenger.sample]

end UniStark

/-! ## Concrete instances for the uni-stark claims -/

/-- A trivial PCS instance over the 17-element field whose opening appends
nothing to the transcript. -/
def trivialPcs : PcsOps F17 Unit Unit Unit Unit :=
  ⟨fun _ => ((), ()), fun _ => 1, fun _ v => [v], fun _ => ((), ()),
   fun z => z, fun _ _ _ _ c => ([], (), c)⟩

/-- A fresh challenger over the 17-element field. -/
def trivialCh : Challenger F17 Unit := ⟨[], fun _ => 3, 0⟩

/-- An AIR whose maximum symbolic constraint degree is 0. -/
def airDeg0 : AirData F17 := ⟨[], fun _ _ => 0⟩

/-- An AIR with one constraint of degree 3. -/
def airCubic : AirData F17 := ⟨[3], fun k i => (k : F17) * (i : F17) + 1⟩

/-- Concrete instance of C7: the prover aborts on a degree-0 AIR. -/
theorem C7_prove_never_partial_witness :
    prove trivialPcs airDeg0 [[1]] [] trivialCh = none :=
  ( C7_prove_never_partial trivialPcs airDeg0 [[1]] [] trivialCh).2.2 (by decide)

/-- Concrete instance of C2 on the 17-element field. -/
theorem C2_transcript_order_witness :
    ∃ pf chF,
      prove trivialPcs airCubic [[1], [2]] [5] trivialCh = some (pf, chF) ∧
      ∃ openTail,
        chF.log = trivialCh.log ++
          ([FSEvent.obsVal ((pf.degreeBits : F17)),
            FSEvent.obsCommit pf.commitments.trace] ++
            [(5 : F17)].map FSEvent.obsVal ++
            [FSEvent.sample, FSEvent.obsCommit pf.commitments.quotientChunks,
              FSEvent.sample]) ++ openTail := by
  obtain ⟨pf, chF, hsome⟩ :
      ∃ pf chF, prove trivialPcs airCubic [[1], [2]] [5] trivialCh =
        some (pf, chF) := by
    cases hv : prove trivialPcs airCubic [[1], [2]] [5] trivialCh with
    | none =>
      have hs : (prove trivialPcs airCubic [[1], [2]] [5] trivialCh).isSome =
          true := by decide
      rw [hv] at hs
      exact absurd hs (by simp)
    | some v => exact ⟨v.1, v.2, rfl⟩
  exact ⟨pf, chF, hsome,
    C2_transcript_order trivialPcs airCubic [[1], [2]] [5] trivialCh
      (fun td qd z zn c => ⟨[], by simp [trivialPcs]⟩) pf chF hsome⟩

/-! ## The FRI prover (`fri/src/prover.rs`)

The Reed–Solomon `FoldableLinearCode` instance is the one defined in the
source's test module (`RsCode`, lines 196–279).  `Codeword` and its methods
(`fold`, `fold_to_log_word_len`, `sum_words_from_same_code`, `decode`,
`is_restricted`) live in the fri crate outside the provided sources and are
modelled from the spec (§4.5); `RsCode::encode`, `RsCode::decode` and
`RsCode::fold_word_at_point` are embedded from the source. -/

section Fri

variable {F : Type*} [Field F] [DecidableEq F]

/-- `reverse_slice_index_bits` of `p3_util` (not among the provided sources;
modelled from the spec §3: codewords are stored in bit-reversed order). -/
def bitRevPerm (v : List F) : List F :=
  (List.range v.length).map fun i => v.getD (bitRev (ilog2 v.length) i) 0

/-- The Reed–Solomon code descriptor (`RsCode`, `fri/src/prover.rs` test
module lines 196–210). -/
structure RsCode where
  logBlowup : ℕ
  logMsgLen : ℕ
deriving DecidableEq

/-- `log_word_len` (provided method of `FoldableLinearCode`, outside the
provided sources; modelled from the spec: a codeword of message length
`2^m` and blowup `b` has length `2^(m+b)`). -/
def RsCode.logWordLen (c : RsCode) : ℕ := c.logBlowup + c.logMsgLen

/-- `RsCode::encode` (source lines 223–230): resize the message coefficients
to `len << log_blowup` with zeros, forward DFT, then bit-reverse the
evaluation order.  (The source asserts the message length is
`2^log_msg_len`; the theorems carry that as a hypothesis.) -/
def RsCode.encode (G : TwoAdicGens F) (c : RsCode) (msg : List F) : List F :=
  bitRevPerm (dftCol (G.gen c.logWordLen)
    (msg ++ List.replicate ((msg.length <<< c.logBlowup) - msg.length) 0))

/-- `RsCode::decode` (source lines 231–238): un-bit-reverse, check the
length, inverse DFT, assert the high coefficients vanish (panic modelled as
`none`) and return the low `2^log_msg_len` coefficients. -/
def RsCode.decode (G : TwoAdicGens F) (c : RsCode) (codeword : List F) :
    Option (List F) :=
  let evals := bitRevPerm codeword
  if evals.length = 2 ^ (c.logMsgLen + c.logBlowup) then
    let coeffs := idftCol (G.gen (c.logMsgLen + c.logBlowup)) evals
    if (coeffs.drop (2 ^ c.logMsgLen)).all (fun x => x = 0) then
      some (coeffs.take (2 ^ c.logMsgLen))
    else none
  else none

/-- `RsCode::folded_code` (source lines 239–241): same blowup, message
length halved.  (`log_msg_len - 1` underflows for a length-1 message; the
caller `fold` guards that case.) -/
def RsCode.foldedCode (c : RsCode) : RsCode :=
  ⟨c.logBlowup, c.logMsgLen - 1⟩

/-- `RsCode::fold_word_at_point` (source lines 242–252): interpolate the
sibling pair `(e0, e1)` over the two points `±x` of the coset at `index` and
evaluate at `beta`.  (`reverse_slice_index_bits` of the 2-element point
slice is the identity.) -/
def RsCode.foldWordAtPoint (G : TwoAdicGens F) (c : RsCode) (beta : F)
    (index : ℕ) (e : F × F) : F :=
  let subgroupStart := G.gen (c.logMsgLen + c.logBlowup) ^
    bitRev (c.logMsgLen + c.logBlowup - 1) index
  let x0 := subgroupStart
  let x1 := G.gen 1 * subgroupStart
  e.1 + (beta - x0) * (e.2 - e.1) / (x1 - x0)

/-- A codeword: a code descriptor, the restriction index, and the word
(the `Codeword` struct of the fri crate, outside the provided sources;
field layout as used by the source test, lines 293–298). -/
structure Codeword (F : Type*) where
  code : RsCode
  index : ℕ
  word : List F

/-- `Codeword::is_restricted` (outside the provided sources; modelled from
the spec: a full codeword carries the code's whole word). -/
def Codeword.isRestricted (cw : Codeword F) : Bool :=
  cw.word.length ≠ 2 ^ cw.code.logWordLen

/-- One arity-2 fold of a codeword (outside the provided sources; modelled
from the spec §4.5 step 5: replace each sibling pair with the
interpolation-at-β value; the pair at position `i` of a restricted word with
restriction index `r` sits at global pair index `r·(len/2) + i`).  A
length-1 message cannot fold (`log_msg_len - 1` underflow: `none`). -/
def Codeword.fold (G : TwoAdicGens F) (beta : F) (cw : Codeword F) :
    Option (Codeword F) :=
  if cw.code.logMsgLen = 0 then none
  else some
    { code := cw.code.foldedCode
      index := cw.index
      word := (List.range (cw.word.length / 2)).map fun i =>
        cw.code.foldWordAtPoint G beta (cw.index * (cw.word.length / 2) + i)
          (cw.word.getD (2 * i) 0, cw.word.getD (2 * i + 1) 0) }

/-- `Codeword::fold_to_log_word_len` (outside the provided sources;
modelled from the spec §4.5: fold with the sampled `β` until the word length
is `2^target`), with explicit fuel for the recursion. -/
def Codeword.foldToAux (G : TwoAdicGens F) (target : ℕ) (beta : F) :
    ℕ → Codeword F → Option (Codeword F)
  | 0, cw => if cw.code.logWordLen ≤ target then some cw else none
  | fuel + 1, cw =>
    if cw.code.logWordLen ≤ target then some cw
    else (cw.fold G beta).bind (Codeword.foldToAux G target beta fuel)

/-- `fold_to_log_word_len`, fueled by the message length (each fold halves
the message, so this always suffices). -/
def Codeword.foldToLogWordLen (G : TwoAdicGens F) (target : ℕ) (beta : F)
    (cw : Codeword F) : Option (Codeword F) :=
  Codeword.foldToAux G target beta cw.code.logMsgLen cw

/-- One step of `sum_words_from_same_code`: add the word into an existing
codeword of the same code, or append. -/
def insertByCode : List (Codeword F) → Codeword F → List (Codeword F)
  | [], cw => [cw]
  | c :: rest, cw =>
    if c.code = cw.code then
      { c with word := List.zipWith (· + ·) c.word cw.word } :: rest
    else c :: insertByCode rest cw

/-- `Codeword::sum_words_from_same_code` (outside the provided sources;
modelled from the spec §4.5 step 6: combine codewords that share the same
code by summing them component-wise). -/
def sumWordsFromSameCode (l : List (Codeword F)) : List (Codeword F) :=
  l.foldl insertByCode []

/-- The univariate folding of a polynomial at `β` (spec §8 property 3):
coefficientwise `c'_j = c_{2j} + β·c_{2j+1}`, i.e. `p_e + β·p_o`.  Used to
state what the word-level fold computes. -/
def foldMsg (β : F) (msg : List F) : List F :=
  List.zipWith (fun a b => a + β * b) (evens msg) (odds msg)

/-- `FriConfig` (fields as the spec §6 enumerates; the MMCS instance is the
separate oracle below). -/
structure FriConfig where
  logBlowup : ℕ
  logMaxFinalPolyLen : ℕ
  logFoldingArity : ℕ
  numQueries : ℕ
  proofOfWorkBits : ℕ

/-- The external MMCS and challenger operations the FRI prover calls
(modelled from the spec §4.2–§4.3): commit to a list of matrices, observe a
commitment, sample an extension element, observe the final polynomial,
grind, and sample query index bits. -/
structure FriOracle (F C S : Type*) where
  commit : List (List (List F)) → C
  observe : S → C → S
  sampleExt : S → F × S
  observeExtSlice : S → List F → S
  grind : S → ℕ → ℕ × S
  sampleBits : S → ℕ → ℕ × S

/-- Chunk a value buffer into rows of the given width
(`RowMajorMatrix::new(word, width)`), with explicit fuel. -/
def chunkRowsFuel : ℕ → ℕ → List F → List (List F)
  | 0, _, _ => []
  | fuel + 1, w, v => if v.isEmpty then [] else v.take w :: chunkRowsFuel fuel w (v.drop w)

/-- `RowMajorMatrix::new(values, width)` as its list of rows. -/
def chunkRows (w : ℕ) (v : List F) : List (List F) :=
  chunkRowsFuel v.length w v

/-- The word-length log the source reads off a codeword
(`cw.word.log_strict_len()`; panics on a non-power-of-two length, which the
precondition theorems exclude). -/
def wordLog (cw : Codeword F) : ℕ := ilog2 cw.word.length

variable {C S : Type*}

/-- One layer of prover data: the list of committed matrices (the MMCS
`ProverData` retains the leaves; spec §4.2). -/
abbrev FriLayerData (F : Type*) := List (List (List F))

/-- The `while` loop of `commit_phase` (`fri/src/prover.rs` lines 93–120),
with explicit fuel (the loop terminates because `log_word_len` shrinks by
`log_folding_arity` each round; with arity 0 the Rust loop would not
terminate, and exhausted fuel is `none`).  Each round: decrease
`log_word_len` by the arity (usize underflow is `none`), activate the
inputs whose words are longer than `2^log_word_len`, commit to all active
codewords laid out with `2^(word log − log_word_len)` columns, observe the
commitment, sample `β`, fold every active codeword down to `log_word_len`,
and merge codewords that now share a code. -/
def commitPhaseLoop (G : TwoAdicGens F) (or : FriOracle F C S)
    (cfg : FriConfig) :
    ℕ → List (Codeword F) → ℕ → List (Codeword F) → List C →
    List (FriLayerData F) → S →
    Option (List C × List (FriLayerData F) × List (Codeword F) × S)
  | 0, _, _, _, _, _, _ => none
  | fuel + 1, inputs, logWordLen, folded, commits, data, s =>
    if inputs.isEmpty ∧ logWordLen ≤ cfg.logBlowup + cfg.logMaxFinalPolyLen then
      some (commits, data, folded, s)
    else if logWordLen < cfg.logFoldingArity then none
    else
      let logWordLen' := logWordLen - cfg.logFoldingArity
      let activated := inputs.takeWhile fun cw => logWordLen' < wordLog cw
      let rest := inputs.dropWhile fun cw => logWordLen' < wordLog cw
      let folded1 := folded ++ activated
      let mats := folded1.map fun cw =>
        chunkRows (2 ^ (wordLog cw - logWordLen')) cw.word
      let cm := or.commit mats
      let sb := or.sampleExt (or.observe s cm)
      match folded1.mapM (Codeword.foldToLogWordLen G logWordLen' sb.1) with
      | none => none
      | some folded2 =>
        commitPhaseLoop G or cfg fuel rest logWordLen'
          (sumWordsFromSameCode folded2) (commits ++ [cm]) (data ++ [mats]) sb.2

/-- `commit_phase` (`fri/src/prover.rs` lines 76–132): read the first
input's word-length log (`unwrap` panics on an empty input vector), run the
folding loop, assert exactly one codeword remains, decode it into the final
polynomial (its asserts are `none`), and observe its coefficients. -/
def commitPhase (G : TwoAdicGens F) (or : FriOracle F C S) (cfg : FriConfig)
    (inputs : List (Codeword F)) (s : S) :
    Option (List C × List (FriLayerData F) × List F × S) :=
  match inputs with
  | [] => none
  | cw0 :: _ =>
    let logWordLen := cw0.code.logWordLen
    match commitPhaseLoop G or cfg (logWordLen + 1) inputs logWordLen [] [] [] s with
    | none => none
    | some (commits, data, folded, s1) =>
      match folded with
      | [f] =>
        match f.code.decode G f.word with
        | none => none
        | some finalPoly =>
          some (commits, data, finalPoly, or.observeExtSlice s1 finalPoly)
      | _ => none

/-- `split_bits` of `p3_util` (not among the provided sources; modelled
from the spec §4.6: split `j` into `(j', j'')` with `j''` the low
`n` bits). -/
def splitBits (index n : ℕ) : ℕ × ℕ := (index >>> n, index % 2 ^ n)

/-- `Mmcs::open_batch` on the modelled prover data (external; spec §4.2:
`rows[i]` is the row of matrix `i` at `index mod height_i`; the
authentication proof is opaque). -/
def openBatch (idx : ℕ) (mats : FriLayerData F) : List (List F) :=
  mats.map fun m => m.getD (idx % m.length) []

/-- One opened commit-phase step: the opened rows (with the recomputable
entry removed) and the opaque MMCS proof. -/
structure CommitPhaseProofStep (F : Type*) where
  openings : List (List F)
  proof : Unit
deriving DecidableEq

/-- `answer_query` (`fri/src/prover.rs` lines 134–154): per layer, split the
index into `(folded_index, index_in_subgroup)` by the folding arity, open
the layer's matrices at `folded_index`, remove from each opened row the
entry at column `index_in_subgroup >> (arity − log2(row length))`, and pass
`folded_index` to the next layer. -/
def answerQuery (cfg : FriConfig) :
    List (FriLayerData F) → ℕ → List (CommitPhaseProofStep F)
  | [], _ => []
  | d :: rest, index =>
    let fi := splitBits index cfg.logFoldingArity
    let openings := openBatch fi.1 d
    let openings' := openings.map fun o =>
      o.eraseIdx (fi.2 >>> (cfg.logFoldingArity - ilog2 o.length))
    ⟨openings', ()⟩ :: answerQuery cfg rest fi.1

/-- What claim C4 states verbatim: per layer, remove from each opened row
the entry at column `j''` (this is the claim's wording, to be compared with
the source's `answer_query`; the source shifts `j''` right by
`arity − log2(row length)` first). -/
def answerQuerySpec (cfg : FriConfig) :
    List (FriLayerData F) → ℕ → List (CommitPhaseProofStep F)
  | [], _ => []
  | d :: rest, index =>
    let fi := splitBits index cfg.logFoldingArity
    let openings := openBatch fi.1 d
    let openings' := openings.map fun o => o.eraseIdx fi.2
    ⟨openings', ()⟩ :: answerQuerySpec cfg rest fi.1

/-- A per-query proof (`QueryProof`). -/
structure QueryProof (F IP : Type*) where
  inputProof : IP
  commitPhaseOpenings : List (CommitPhaseProofStep F)

/-- The FRI proof object (`FriProof`). -/
structure FriProofS (F C IP : Type*) where
  commitPhaseCommits : List C
  queryProofs : List (QueryProof F IP)
  finalPoly : List F
  powWitness : ℕ

/-- The two initial assertions of `fri::prove` (source lines 29–37): all
inputs are full codewords with the config's blowup, and the inputs are
sorted strictly decreasing in word length. -/
def friProveChecks (cfg : FriConfig) (inputs : List (Codeword F)) : Bool :=
  (inputs.all fun cw =>
    !cw.isRestricted && (cw.code.logBlowup = cfg.logBlowup)) &&
  ((inputs.zip inputs.tail).all fun lr =>
    lr.2.code.logWordLen < lr.1.code.logWordLen)

/-- The query loop of `fri::prove` (lines 51–59): `num_queries` times,
sample an index and build a `QueryProof`. -/
def queryLoop {IP : Type*} (or : FriOracle F C S) (cfg : FriConfig)
    (data : List (FriLayerData F)) (proveInput : ℕ → IP) (indexBits : ℕ) :
    ℕ → S → List (QueryProof F IP) × S
  | 0, s => ([], s)
  | m + 1, s =>
    let ib := or.sampleBits s indexBits
    let qp : QueryProof F IP :=
      ⟨proveInput ib.1, answerQuery cfg data ib.1⟩
    let r := queryLoop or cfg data proveInput indexBits m ib.2
    (qp :: r.1, r.2)

/-- `fri::prove` (`fri/src/prover.rs` lines 16–67): assert the input-set
preconditions (panic modelled as `none`), run the commit phase, grind,
compute the index bit-width from `log_blowup + final_poly.log_strict_len()
+ log_folding_arity · num_layers`, and answer `num_queries` sampled
queries. -/
def friProve {IP : Type*} (G : TwoAdicGens F) (or : FriOracle F C S)
    (cfg : FriConfig) (inputs : List (Codeword F)) (proveInput : ℕ → IP)
    (s : S) : Option (FriProofS F C IP × S) :=
  if friProveChecks cfg inputs then
    match commitPhase G or cfg inputs s with
    | none => none
    | some (commits, data, finalPoly, s1) =>
      let pw := or.grind s1 cfg.proofOfWorkBits
      let indexBits := cfg.logBlowup + ilog2 finalPoly.length +
        cfg.logFoldingArity * commits.length
      let q := queryLoop or cfg data proveInput indexBits cfg.numQueries pw.2
      some (⟨commits, q.1, finalPoly, pw.1⟩, q.2)
  else none

/-- **C9.** `fri::prove` panics when called with an empty vector of input
codewords: the two initial assertions pass vacuously and `commit_phase`
unconditionally unwraps the first input's word length (`inputs.peek()
.unwrap()`, line 89), so the spec's "set of codewords" must be non-empty. -/
theorem C9_fri_prove_empty_inputs {IP : Type*} (G : TwoAdicGens F)
    (or : FriOracle F C S) (cfg : FriConfig) (proveInput : ℕ → IP) (s : S) :
    friProve G or cfg [] proveInput s = none := rfl

theorem zip_tail_all_iff_chain' (f : Codeword F → ℕ) (l : List (Codeword F)) :
    ((l.zip l.tail).all fun lr => f lr.2 < f lr.1) = true ↔
      List.Chain' (fun a b => f b < f a) l := by
  induction l with
  | nil => simp
  | cons a t ih =>
    cases t with
    | nil => simp
    | cons b t2 =>
      rw [show (a :: b :: t2).tail = b :: t2 from rfl, List.zip_cons_cons,
        List.all_cons, Bool.and_eq_true, List.chain'_cons]
      rw [show (b :: t2).zip (b :: t2).tail = (b :: t2).zip t2 from rfl] at ih
      rw [ih]
      simp

/-- **C8.** `fri::prove` requires and checks by assertion that every input
is a full (unrestricted) codeword whose code has `log_blowup` equal to
`config.log_blowup` and that the inputs are sorted strictly decreasing by
word length; it returns `none` (panics) on any violating input set, and
under this precondition neither initial assertion fires. -/
theorem C8_fri_prove_assertions {IP : Type*} (G : TwoAdicGens F)
    (or : FriOracle F C S) (cfg : FriConfig) (inputs : List (Codeword F))
    (proveInput : ℕ → IP) (s : S) :
    (friProveChecks cfg inputs = true ↔
      ((∀ cw ∈ inputs, cw.word.length = 2 ^ cw.code.logWordLen ∧
          cw.code.logBlowup = cfg.logBlowup) ∧
        List.Chain' (fun l r => r.code.logWordLen < l.code.logWordLen)
          inputs)) ∧
    (friProveChecks cfg inputs = false →
      friProve G or cfg inputs proveInput s = none) := by
  constructor
  · unfold friProveChecks
    rw [Bool.and_eq_true, List.all_eq_true,
      zip_tail_all_iff_chain' (fun cw => cw.code.logWordLen) inputs]
    apply and_congr_left'
    constructor
    · intro h cw hcw
      have := h cw hcw
      rw [Bool.and_eq_true, Bool.not_eq_true'] at this
      obtain ⟨h1, h2⟩ := this
      unfold Codeword.isRestricted at h1
      simp at h1 h2
      exact ⟨h1, h2⟩
    · intro h cw hcw
      obtain ⟨h1, h2⟩ := h cw hcw
      rw [Bool.and_eq_true, Bool.not_eq_true']
      unfold Codeword.isRestricted
      simp [h1, h2]
  · intro hfail
    unfold friProve
    rw [hfail]
    rfl

theorem answerQuery_length (cfg : FriConfig) :
    ∀ (data : List (FriLayerData F)) (index : ℕ),
      (answerQuery cfg data index).length = data.length := by
  intro data
  induction data with
  | nil => intro index; rfl
  | cons d rest ih =>
    intro index
    unfold answerQuery
    rw [List.length_cons, List.length_cons, ih]

theorem answerQuery_getD (cfg : FriConfig) :
    ∀ (data : List (FriLayerData F)) (index : ℕ) (l : ℕ), l < data.length →
      (answerQuery cfg data index).getD l ⟨[], ()⟩ =
        ⟨(openBatch ((index >>> (l * cfg.logFoldingArity)) >>>
              cfg.logFoldingArity) (data.getD l [])).map fun o =>
            o.eraseIdx
              (((index >>> (l * cfg.logFoldingArity)) %
                  2 ^ cfg.logFoldingArity) >>>
                (cfg.logFoldingArity - ilog2 o.length)),
          ()⟩ := by
  intro data
  induction data with
  | nil =>
    intro index l hl
    exact absurd hl (by simp)
  | cons d rest ih =>
    intro index l hl
    cases l with
    | zero =>
      simp only [answerQuery, splitBits, List.getD_cons_zero, Nat.zero_mul,
        Nat.shiftRight_zero]
    | succ l =>
      have hstep : (answerQuery cfg (d :: rest) index).getD (l + 1) ⟨[], ()⟩ =
          (answerQuery cfg rest (index >>> cfg.logFoldingArity)).getD l
            ⟨[], ()⟩ := by
        simp only [answerQuery, splitBits, List.getD_cons_succ]
      rw [hstep, ih (index >>> cfg.logFoldingArity) l
        (by simpa using Nat.lt_of_succ_lt_succ hl)]
      have hshift : (index >>> cfg.logFoldingArity) >>>
          (l * cfg.logFoldingArity) =
          index >>> ((l + 1) * cfg.logFoldingArity) := by
        rw [← Nat.shiftRight_add, Nat.succ_mul, Nat.add_comm]
      rw [hshift]
      rfl

/-! ### Reed–Solomon codeword lemmas for C1 -/

theorem bitRevPerm_length (v : List F) : (bitRevPerm v).length = v.length := by
  simp [bitRevPerm]

theorem bitRevPerm_getD (v : List F) {n i : ℕ} (hv : v.length = 2 ^ n)
    (hi : i < 2 ^ n) :
    (bitRevPerm v).getD i 0 = v.getD (bitRev n i) 0 := by
  unfold bitRevPerm
  rw [hv, ilog2_two_pow]
  exact getD_map_range hi

theorem bitRevPerm_bitRevPerm (v : List F) {n : ℕ} (hv : v.length = 2 ^ n) :
    bitRevPerm (bitRevPerm v) = v := by
  apply list_ext_getD
  · rw [bitRevPerm_length, bitRevPerm_length]
  · intro i hi
    rw [hv] at hi
    rw [bitRevPerm_getD _ (by rw [bitRevPerm_length, hv]) hi,
      bitRevPerm_getD _ hv (bitRev_lt n i), bitRev_bitRev n i hi]

theorem rs_padded_length (c : RsCode) (msg : List F)
    (hmsg : msg.length = 2 ^ c.logMsgLen) :
    (msg ++ List.replicate ((msg.length <<< c.logBlowup) - msg.length)
      (0 : F)).length = 2 ^ c.logWordLen := by
  rw [List.length_append, List.length_replicate, hmsg, Nat.shiftLeft_eq,
    RsCode.logWordLen, pow_add]
  have h1 : (2 : ℕ) ^ c.logMsgLen ≤ 2 ^ c.logMsgLen * 2 ^ c.logBlowup :=
    Nat.le_mul_of_pos_right _ (by positivity)
  have h2 : (2 : ℕ) ^ c.logMsgLen * 2 ^ c.logBlowup =
      2 ^ c.logBlowup * 2 ^ c.logMsgLen := mul_comm _ _
  omega

theorem encode_length (G : TwoAdicGens F) (c : RsCode) (msg : List F)
    (hmsg : msg.length = 2 ^ c.logMsgLen) :
    (c.encode G msg).length = 2 ^ c.logWordLen := by
  unfold RsCode.encode
  rw [bitRevPerm_length, dftCol_length, rs_padded_length c msg hmsg]

theorem encode_getD (G : TwoAdicGens F) (c : RsCode) (msg : List F)
    (hmsg : msg.length = 2 ^ c.logMsgLen) {j : ℕ}
    (hj : j < 2 ^ c.logWordLen) :
    (c.encode G msg).getD j 0 =
      evalPoly msg (G.gen c.logWordLen ^ bitRev c.logWordLen j) := by
  unfold RsCode.encode
  have hdlen : (dftCol (G.gen c.logWordLen)
      (msg ++ List.replicate ((msg.length <<< c.logBlowup) - msg.length)
        0)).length = 2 ^ c.logWordLen := by
    rw [dftCol_length, rs_padded_length c msg hmsg]
  rw [bitRevPerm_getD _ hdlen hj,
    dftCol_getD _ _
      (by rw [dftCol_length] at hdlen; rw [hdlen]; exact bitRev_lt _ _),
    rs_padded_length c msg hmsg,
    Finset.sum_congr rfl fun k _ => by rw [pow_mul]]
  exact sum_pad_eq_evalPoly msg
    (by rw [hmsg, ← rs_padded_length c msg hmsg, List.length_append, hmsg];
        omega) _

/-- A word of the right length whose entries are the bit-reversed
evaluations of `msg` is `encode msg`. -/
theorem eq_encode (G : TwoAdicGens F) (c : RsCode) (msg : List F)
    (hmsg : msg.length = 2 ^ c.logMsgLen) (w : List F)
    (hwlen : w.length = 2 ^ c.logWordLen)
    (hw : ∀ j, j < 2 ^ c.logWordLen → w.getD j 0 =
      evalPoly msg (G.gen c.logWordLen ^ bitRev c.logWordLen j)) :
    w = c.encode G msg := by
  apply list_ext_getD
  · rw [hwlen, encode_length G c msg hmsg]
  · intro i hi
    rw [encode_length G c msg hmsg] at hi
    rw [hw i hi, encode_getD G c msg hmsg hi]

theorem evalPoly_nil (x : F) : evalPoly ([] : List F) x = 0 := by
  simp [evalPoly]

theorem evalPoly_cons (a : F) (l : List F) (x : F) :
    evalPoly (a :: l) x = a + x * evalPoly l x := by
  unfold evalPoly
  rw [List.length_cons, Finset.sum_range_succ']
  have h1 : ∀ i, (a :: l).getD (i + 1) 0 * x ^ (i + 1) =
      (l.getD i 0 * x ^ i) * x := by
    intro i
    rw [List.getD_cons_succ, pow_succ]
    ring
  rw [Finset.sum_congr rfl fun i _ => h1 i, ← Finset.sum_mul,
    List.getD_cons_zero, pow_zero, mul_one]
  ring

theorem evens_length : ∀ c : List F, (evens c).length = (c.length + 1) / 2
  | [] => by simp [evens]
  | [a] => by simp [evens]
  | a :: b :: t => by
    rw [show evens (a :: b :: t) = a :: evens t from rfl, List.length_cons,
      evens_length t, List.length_cons, List.length_cons]
    omega

theorem odds_length : ∀ c : List F, (odds c).length = c.length / 2
  | [] => by simp [odds]
  | [a] => by simp [odds]
  | a :: b :: t => by
    rw [show odds (a :: b :: t) = b :: odds t from rfl, List.length_cons,
      odds_length t, List.length_cons, List.length_cons]
    omega

theorem evalPoly_even_odd : ∀ (c : List F) (x : F),
    evalPoly c x = evalPoly (evens c) (x ^ 2) + x * evalPoly (odds c) (x ^ 2)
  | [], x => by simp [evens, odds, evalPoly]
  | [a], x => by
    rw [show evens [a] = [a] from rfl, show odds [a] = ([] : List F) from rfl,
      evalPoly_cons, evalPoly_cons, evalPoly_nil, evalPoly_nil]
    ring
  | a :: b :: t, x => by
    rw [show evens (a :: b :: t) = a :: evens t from rfl,
      show odds (a :: b :: t) = b :: odds t from rfl]
    simp only [evalPoly_cons]
    rw [evalPoly_even_odd t x]
    ring

theorem evalPoly_zipWith_add_mul (β : F) : ∀ (u v : List F),
    u.length = v.length → ∀ x,
    evalPoly (List.zipWith (fun a b => a + β * b) u v) x =
      evalPoly u x + β * evalPoly v x
  | [], [], _, x => by simp [evalPoly]
  | [], b :: v, h, x => by simp at h
  | a :: u, [], h, x => by simp at h
  | a :: u, b :: v, h, x => by
    rw [List.zipWith_cons_cons]
    simp only [evalPoly_cons]
    rw [evalPoly_zipWith_add_mul β u v (by simpa using h) x]
    ring

theorem evalPoly_zipWith_add : ∀ (u v : List F), u.length = v.length → ∀ x,
    evalPoly (List.zipWith (· + ·) u v) x = evalPoly u x + evalPoly v x
  | [], [], _, x => by simp [evalPoly]
  | [], b :: v, h, x => by simp at h
  | a :: u, [], h, x => by simp at h
  | a :: u, b :: v, h, x => by
    rw [List.zipWith_cons_cons]
    simp only [evalPoly_cons]
    rw [evalPoly_zipWith_add u v (by simpa using h) x]
    ring

theorem foldMsg_length (β : F) (msg : List F) :
    (foldMsg β msg).length = msg.length / 2 := by
  unfold foldMsg
  rw [List.length_zipWith, evens_length, odds_length]
  omega

/-- Decoding an encoded message recovers the message (the two `decode`
assertions hold on genuine codewords). -/
theorem decode_encode (G : TwoAdicGens F) (c : RsCode)
    (hL : c.logWordLen ≤ G.maxLog) (msg : List F)
    (hmsg : msg.length = 2 ^ c.logMsgLen) :
    c.decode G (c.encode G msg) = some msg := by
  have hcomm : c.logMsgLen + c.logBlowup = c.logWordLen := by
    rw [RsCode.logWordLen]
    omega
  have hplen : (msg ++ List.replicate ((msg.length <<< c.logBlowup) -
      msg.length) (0 : F)).length = 2 ^ c.logWordLen :=
    rs_padded_length c msg hmsg
  have hdlen : (dftCol (G.gen c.logWordLen)
      (msg ++ List.replicate ((msg.length <<< c.logBlowup) - msg.length)
        0)).length = 2 ^ c.logWordLen := by
    rw [dftCol_length, hplen]
  unfold RsCode.decode RsCode.encode
  rw [bitRevPerm_bitRevPerm _ hdlen, hcomm, if_pos hdlen,
    idftCol_dftCol G hL _ hplen]
  rw [show (2 : ℕ) ^ c.logMsgLen = msg.length from hmsg.symm]
  simp only [List.drop_left, List.take_left]
  rw [if_pos (by simp)]

/-- The word-level arity-2 fold of an encoded message is the encoding (at
the folded code) of the coefficientwise fold `p_e + β·p_o`. -/
theorem fold_encode (G : TwoAdicGens F) (c : RsCode) (msg : List F) (β : F)
    (hm : 1 ≤ c.logMsgLen) (hL : c.logWordLen ≤ G.maxLog)
    (hmsg : msg.length = 2 ^ c.logMsgLen) :
    Codeword.fold G β ⟨c, 0, c.encode G msg⟩ =
      some ⟨c.foldedCode, 0, c.foldedCode.encode G (foldMsg β msg)⟩ := by
  obtain ⟨μ, hmμ⟩ : ∃ μ, c.logMsgLen = μ + 1 := ⟨c.logMsgLen - 1, by omega⟩
  obtain ⟨n, hLn⟩ : ∃ n, c.logWordLen = n + 1 :=
    ⟨c.logWordLen - 1, by rw [RsCode.logWordLen]; omega⟩
  have hn1 : n + 1 ≤ G.maxLog := by omega
  have hwlen : (c.encode G msg).length = 2 ^ (n + 1) := by
    rw [encode_length G c msg hmsg, hLn]
  have hhalf : (c.encode G msg).length / 2 = 2 ^ n := by
    rw [hwlen, pow_succ]
    omega
  have hfoldedWordLen : c.foldedCode.logWordLen = n := by
    have h1 := hLn
    rw [RsCode.logWordLen] at h1
    show c.logBlowup + (c.logMsgLen - 1) = n
    omega
  have hfc : c.foldedCode.logMsgLen = μ := by
    show c.logMsgLen - 1 = μ
    omega
  have hfoldedMsgLen : (foldMsg β msg).length = 2 ^ c.foldedCode.logMsgLen := by
    rw [foldMsg_length, hmsg, hmμ, hfc, pow_succ]
    omega
  unfold Codeword.fold
  rw [if_neg (show ¬ c.logMsgLen = 0 from by omega)]
  congr 1
  have hkey : (List.range ((c.encode G msg).length / 2)).map (fun i =>
      c.foldWordAtPoint G β (0 * ((c.encode G msg).length / 2) + i)
        ((c.encode G msg).getD (2 * i) 0,
          (c.encode G msg).getD (2 * i + 1) 0)) =
      c.foldedCode.encode G (foldMsg β msg) := by
    apply eq_encode G c.foldedCode (foldMsg β msg) hfoldedMsgLen
    · rw [List.length_map, List.length_range, hhalf, hfoldedWordLen]
    · intro j hj
      rw [hfoldedWordLen] at hj
      have hjm : j < (c.encode G msg).length / 2 := by rw [hhalf]; omega
      rw [getD_map_range hjm]
      have hjj : 2 * j < 2 ^ (n + 1) := by rw [pow_succ]; omega
      have hjj1 : 2 * j + 1 < 2 ^ (n + 1) := by rw [pow_succ]; omega
      have hx2i : (c.encode G msg).getD (2 * j) 0 =
          evalPoly msg (G.gen (n + 1) ^ bitRev n j) := by
        rw [encode_getD G c msg hmsg (by rw [hLn]; exact hjj), hLn,
          bitRev_two_mul]
      have hx2i1 : (c.encode G msg).getD (2 * j + 1) 0 =
          evalPoly msg (-(G.gen (n + 1) ^ bitRev n j)) := by
        rw [encode_getD G c msg hmsg (by rw [hLn]; exact hjj1), hLn,
          bitRev_two_mul_add_one, pow_add, G.gen_pow_half hn1, mul_neg_one]
      have hmb : c.logMsgLen + c.logBlowup = n + 1 := by
        have h1 := hLn
        rw [RsCode.logWordLen] at h1
        omega
      simp only [RsCode.foldWordAtPoint, hmb, Nat.add_sub_cancel]
      rw [show 0 * ((c.encode G msg).length / 2) + j = j from by omega]
      rw [hx2i, hx2i1]
      have hx0 : G.gen (n + 1) ^ bitRev n j ≠ 0 :=
        pow_ne_zero _ (G.gen_ne_zero hn1)
      have hgen1 : G.gen 1 = -1 := G.gen_one (by omega)
      have hgn : G.gen n ^ bitRev n j = (G.gen (n + 1) ^ bitRev n j) ^ 2 := by
        rw [← G.gen_sq n hn1, ← pow_mul, ← pow_mul, mul_comm]
      rw [hfoldedWordLen, hgn]
      set x := G.gen (n + 1) ^ bitRev n j
      simp only [foldMsg]
      rw [evalPoly_zipWith_add_mul β (evens msg) (odds msg)
        (by rw [evens_length, odds_length, hmsg, hmμ, pow_succ]; omega)
        (x ^ 2)]
      rw [evalPoly_even_odd msg x, evalPoly_even_odd msg (-x), neg_sq]
      rw [hgen1, show (-1 : F) * x - x = -(2 * x) from by ring]
      have hneg : -((2 : F) * x) ≠ 0 :=
        neg_ne_zero.mpr (mul_ne_zero G.two_ne_zero hx0)
      set E := evalPoly (evens msg) (x ^ 2)
      set O := evalPoly (odds msg) (x ^ 2)
      rw [div_eq_mul_inv]
      linear_combination (β - x) * O * mul_inv_cancel₀ hneg
  rw [← hkey]

/-- The word-length log the loop reads off an encoded codeword is the
code's `log_word_len`. -/
theorem wordLog_encode (G : TwoAdicGens F) (c : RsCode) (msg : List F)
    (hmsg : msg.length = 2 ^ c.logMsgLen) (i : ℕ) :
    wordLog (⟨c, i, c.encode G msg⟩ : Codeword F) = c.logWordLen := by
  rw [wordLog, encode_length G c msg hmsg, ilog2_two_pow]

/-- Iterating the word-level fold on an encoded message down to the target
word-length log yields the encoding of the iterated coefficient fold: the
result is a full codeword of the code with message length
`target − log_blowup`. -/
theorem foldToAux_encode (G : TwoAdicGens F) (β : F) :
    ∀ (m b target : ℕ) (msg : List F),
      b + m ≤ G.maxLog → msg.length = 2 ^ m → b ≤ target → target ≤ b + m →
      ∃ msg', Codeword.foldToAux G target β m
          ⟨⟨b, m⟩, 0, RsCode.encode G ⟨b, m⟩ msg⟩ =
          some ⟨⟨b, target - b⟩, 0, RsCode.encode G ⟨b, target - b⟩ msg'⟩ ∧
        msg'.length = 2 ^ (target - b) := by
  intro m
  induction m with
  | zero =>
    intro b target msg hmax hmsg hbt htb
    have ht : target - b = 0 := by omega
    unfold Codeword.foldToAux
    rw [if_pos (show RsCode.logWordLen ⟨b, 0⟩ ≤ target from by
      show b + 0 ≤ target; omega)]
    exact ⟨msg, by rw [ht], by rw [ht]; exact hmsg⟩
  | succ m ih =>
    intro b target msg hmax hmsg hbt htb
    by_cases hstop : b + (m + 1) ≤ target
    · have ht : target - b = m + 1 := by omega
      unfold Codeword.foldToAux
      rw [if_pos (show RsCode.logWordLen ⟨b, m + 1⟩ ≤ target from by
        show b + (m + 1) ≤ target; omega)]
      exact ⟨msg, by rw [ht], by rw [ht]; exact hmsg⟩
    · unfold Codeword.foldToAux
      rw [if_neg (show ¬ RsCode.logWordLen ⟨b, m + 1⟩ ≤ target from by
        show ¬ b + (m + 1) ≤ target; omega)]
      rw [fold_encode G ⟨b, m + 1⟩ msg β (show 1 ≤ m + 1 from by omega)
        (show RsCode.logWordLen ⟨b, m + 1⟩ ≤ G.maxLog from by
          show b + (m + 1) ≤ G.maxLog; omega) hmsg]
      have hfm : (foldMsg β msg).length = 2 ^ m := by
        rw [foldMsg_length, hmsg, pow_succ]; omega
      exact ih b target (foldMsg β msg) (by omega) hfm hbt (by omega)

theorem getD_zipWith_add (u v : List F) {j : ℕ} (hu : j < u.length)
    (hv : j < v.length) :
    (List.zipWith (· + ·) u v).getD j 0 = u.getD j 0 + v.getD j 0 := by
  have hj : j < (List.zipWith (· + ·) u v).length := by
    rw [List.length_zipWith]; omega
  rw [List.getD_eq_getElem _ _ hj, List.getElem_zipWith,
    List.getD_eq_getElem u 0 hu, List.getD_eq_getElem v 0 hv]

/-- Encoding is additive: the componentwise sum of two codewords encodes
the componentwise sum of their messages. -/
theorem encode_add (G : TwoAdicGens F) (c : RsCode) (m1 m2 : List F)
    (h1 : m1.length = 2 ^ c.logMsgLen) (h2 : m2.length = 2 ^ c.logMsgLen) :
    List.zipWith (· + ·) (c.encode G m1) (c.encode G m2) =
      c.encode G (List.zipWith (· + ·) m1 m2) := by
  have hz : (List.zipWith (· + ·) m1 m2).length = 2 ^ c.logMsgLen := by
    rw [List.length_zipWith]; omega
  apply eq_encode G c _ hz
  · rw [List.length_zipWith, encode_length G c m1 h1,
      encode_length G c m2 h2]
    omega
  · intro j hj
    rw [getD_zipWith_add _ _ (by rw [encode_length G c m1 h1]; exact hj)
        (by rw [encode_length G c m2 h2]; exact hj),
      encode_getD G c m1 h1 hj, encode_getD G c m2 h2 hj,
      evalPoly_zipWith_add m1 m2 (by omega) _]

/-- Folding `insert_by_code` over encoded codewords of one common code
accumulates them into a single encoded codeword. -/
theorem foldl_insertByCode_encode (G : TwoAdicGens F) (c₀ : RsCode) :
    ∀ (l : List (Codeword F)) (msg : List F),
      msg.length = 2 ^ c₀.logMsgLen →
      (∀ cw ∈ l, ∃ mg, cw = ⟨c₀, 0, c₀.encode G mg⟩ ∧
        mg.length = 2 ^ c₀.logMsgLen) →
      ∃ total, List.foldl insertByCode [⟨c₀, 0, c₀.encode G msg⟩] l =
          [⟨c₀, 0, c₀.encode G total⟩] ∧
        total.length = 2 ^ c₀.logMsgLen := by
  intro l
  induction l with
  | nil => intro msg hmsg _; exact ⟨msg, rfl, hmsg⟩
  | cons cw rest ih =>
    intro msg hmsg hall
    obtain ⟨mg, hcw, hmg⟩ := hall cw (by simp)
    subst hcw
    rw [List.foldl_cons]
    have hstep : insertByCode [(⟨c₀, 0, c₀.encode G msg⟩ : Codeword F)]
        ⟨c₀, 0, c₀.encode G mg⟩ =
        [⟨c₀, 0, c₀.encode G (List.zipWith (· + ·) msg mg)⟩] := by
      simp only [insertByCode, if_pos]
      rw [encode_add G c₀ msg mg hmsg hmg]
    rw [hstep]
    exact ih (List.zipWith (· + ·) msg mg)
      (by rw [List.length_zipWith]; omega)
      (fun cw' hcw' => hall cw' (by simp [hcw']))

/-- `sum_words_from_same_code` on a nonempty list of encoded codewords of a
common code yields the single codeword encoding the summed message. -/
theorem sumWordsFromSameCode_encode (G : TwoAdicGens F) (c₀ : RsCode)
    (l : List (Codeword F)) (hl : l ≠ [])
    (hall : ∀ cw ∈ l, ∃ mg, cw = ⟨c₀, 0, c₀.encode G mg⟩ ∧
      mg.length = 2 ^ c₀.logMsgLen) :
    ∃ total, sumWordsFromSameCode l = [⟨c₀, 0, c₀.encode G total⟩] ∧
      total.length = 2 ^ c₀.logMsgLen := by
  match l, hl with
  | cw :: rest, _ =>
    obtain ⟨mg, hcw, hmg⟩ := hall cw (by simp)
    subst hcw
    unfold sumWordsFromSameCode
    rw [List.foldl_cons]
    exact foldl_insertByCode_encode G c₀ rest mg hmg
      (fun cw' h => hall cw' (by simp [h]))

/-- `fold_to_log_word_len` on an encoded message. -/
theorem foldToLogWordLen_encode (G : TwoAdicGens F) (β : F)
    (b m target : ℕ) (msg : List F) (hmax : b + m ≤ G.maxLog)
    (hmsg : msg.length = 2 ^ m) (hbt : b ≤ target) (htb : target ≤ b + m) :
    ∃ msg', Codeword.foldToLogWordLen G target β
        ⟨⟨b, m⟩, 0, RsCode.encode G ⟨b, m⟩ msg⟩ =
        some ⟨⟨b, target - b⟩, 0, RsCode.encode G ⟨b, target - b⟩ msg'⟩ ∧
      msg'.length = 2 ^ (target - b) :=
  foldToAux_encode G β m b target msg hmax hmsg hbt htb

theorem mem_takeWhile_wordLog {t : ℕ} {l : List (Codeword F)}
    {cw : Codeword F} (hcw : cw ∈ l.takeWhile fun c => t < wordLog c) :
    t < wordLog cw := by
  simpa using List.mem_takeWhile_imp hcw

/-- On a strictly-decreasing list, everything the activation `take_while`
skips has word-length log at most the target. -/
theorem mem_dropWhile_wordLog (t : ℕ) :
    ∀ l : List (Codeword F),
      List.Pairwise (fun a b => wordLog b < wordLog a) l →
      ∀ cw ∈ l.dropWhile (fun c => t < wordLog c), wordLog cw ≤ t := by
  intro l
  induction l with
  | nil => intro _ cw hcw; simp at hcw
  | cons a l ih =>
    intro hpair cw hcw
    by_cases hp : t < wordLog a
    · rw [List.dropWhile_cons_of_pos (by simpa using hp)] at hcw
      exact ih hpair.of_cons cw hcw
    · rw [List.dropWhile_cons_of_neg (by simpa using hp)] at hcw
      rcases List.mem_cons.mp hcw with h1 | h2
      · subst h1; omega
      · have := (List.pairwise_cons.mp hpair).1 cw h2
        omega

/-- `mapM` over `Option` succeeds elementwise: if every element maps to
`some` value satisfying `P`, the whole list maps to `some` list of the same
length whose members satisfy `P`. -/
theorem mapM_option_some {α β : Type*} (f : α → Option β) (P : β → Prop) :
    ∀ l : List α, (∀ x ∈ l, ∃ y, f x = some y ∧ P y) →
      ∃ l', l.mapM f = some l' ∧ l'.length = l.length ∧ ∀ y ∈ l', P y := by
  intro l
  induction l with
  | nil => intro _; exact ⟨[], rfl, rfl, by simp⟩
  | cons a l ih =>
    intro h
    obtain ⟨y, hy, hPy⟩ := h a (by simp)
    obtain ⟨l', hl', hlen, hall⟩ := ih (fun x hx => h x (by simp [hx]))
    refine ⟨y :: l', ?_, by simp [hlen], ?_⟩
    · rw [List.mapM_cons, hy, hl']; rfl
    · intro z hz
      rcases List.mem_cons.mp hz with h1 | h2
      · exact h1 ▸ hPy
      · exact hall z h2

/-- The codewords a loop round folds: the already-active ones plus the
inputs activated at target word-length log `t`. -/
abbrev friFolded1 (t : ℕ) (folded inputs : List (Codeword F)) :
    List (Codeword F) :=
  folded ++ inputs.takeWhile fun cw => t < wordLog cw

/-- The matrices committed in a loop round. -/
abbrev friMats (t : ℕ) (f1 : List (Codeword F)) : FriLayerData F :=
  f1.map fun cw => chunkRows (2 ^ (wordLog cw - t)) cw.word

/-- The `β` sample and successor challenger state of a loop round. -/
abbrev friSb (or : FriOracle F C S) (s : S) (t : ℕ)
    (f1 : List (Codeword F)) : F × S :=
  or.sampleExt (or.observe s (or.commit (friMats t f1)))

/-- **The commit-phase loop invariant.** If every pending input is a full
codeword (restriction index 0) encoding a message of length `2^m` with
`log_max_final_poly_len < m` and `log_blowup + m ≤ log_word_len`, the
pending inputs are strictly decreasing in length, and the active
accumulator is either a single encoded codeword of word-length log exactly
`log_word_len` or empty with the head input at `log_word_len`, then the
loop succeeds and returns a single full codeword encoding a message of
length `2^(ℓ − log_blowup)` for some `ℓ ≤ log_blowup +
log_max_final_poly_len` — the word length can land strictly below
`2^(log_blowup + log_max_final_poly_len)` when the folding arity does not
divide the remaining gap. -/
theorem commitPhaseLoop_spec (G : TwoAdicGens F) (or : FriOracle F C S)
    (cfg : FriConfig) (ha : 1 ≤ cfg.logFoldingArity)
    (hamf : cfg.logFoldingArity ≤ cfg.logMaxFinalPolyLen + 1) :
    ∀ (fuel : ℕ) (inputs : List (Codeword F)) (logw : ℕ)
      (folded : List (Codeword F)) (commits : List C)
      (data : List (FriLayerData F)) (s : S),
      0 < fuel →
      logw < fuel + (cfg.logBlowup + cfg.logMaxFinalPolyLen) →
      logw ≤ G.maxLog →
      (∀ cw ∈ inputs, ∃ m msg, cw = ⟨⟨cfg.logBlowup, m⟩, 0,
          RsCode.encode G ⟨cfg.logBlowup, m⟩ msg⟩ ∧ msg.length = 2 ^ m ∧
        cfg.logMaxFinalPolyLen < m ∧ cfg.logBlowup + m ≤ logw) →
      List.Pairwise (fun x y => wordLog y < wordLog x) inputs →
      ((∃ msg, folded = [⟨⟨cfg.logBlowup, logw - cfg.logBlowup⟩, 0,
          RsCode.encode G ⟨cfg.logBlowup, logw - cfg.logBlowup⟩ msg⟩] ∧
        msg.length = 2 ^ (logw - cfg.logBlowup) ∧
        cfg.logBlowup ≤ logw) ∨
       (folded = [] ∧ ∃ cw0 rest0, inputs = cw0 :: rest0 ∧
         cw0.code.logWordLen = logw)) →
      ∃ commits' data' msg ℓ s',
        commitPhaseLoop G or cfg fuel inputs logw folded commits data s =
          some (commits', data', [⟨⟨cfg.logBlowup, ℓ - cfg.logBlowup⟩, 0,
            RsCode.encode G ⟨cfg.logBlowup, ℓ - cfg.logBlowup⟩ msg⟩],
            s') ∧
        cfg.logBlowup ≤ ℓ ∧
        ℓ ≤ cfg.logBlowup + cfg.logMaxFinalPolyLen ∧
        msg.length = 2 ^ (ℓ - cfg.logBlowup) := by
  intro fuel
  induction fuel with
  | zero =>
    intro inputs logw folded commits data s hf
    exact absurd hf (by omega)
  | succ fuel ih =>
    intro inputs logw folded commits data s hf hfuel hmax hinp hpair hfold
    by_cases hexit : inputs.isEmpty ∧
        logw ≤ cfg.logBlowup + cfg.logMaxFinalPolyLen
    · rcases hfold with ⟨msg, hfeq, hmlen, hble⟩ | ⟨hfe, cw0, rest0, hie, hl0⟩
      · refine ⟨commits, data, msg, logw, s, ?_, hble, hexit.2, hmlen⟩
        rw [commitPhaseLoop, if_pos hexit, hfeq]
      · rw [hie] at hexit
        simp at hexit
    · have hbig : cfg.logBlowup + cfg.logMaxFinalPolyLen < logw := by
        by_cases hie : inputs = []
        · rw [hie] at hexit
          simp at hexit
          omega
        · obtain ⟨cw, hcw⟩ := List.exists_mem_of_ne_nil inputs hie
          obtain ⟨m, msg, _, _, hmfm, hbm⟩ := hinp cw hcw
          omega
      have hge : ¬ logw < cfg.logFoldingArity := by omega
      set t := logw - cfg.logFoldingArity with ht
      have hbt : cfg.logBlowup ≤ t := by omega
      have htlt : t < logw := by omega
      have hmem : ∀ cw ∈ friFolded1 t folded inputs, ∃ m msg,
          cw = ⟨⟨cfg.logBlowup, m⟩, 0,
            RsCode.encode G ⟨cfg.logBlowup, m⟩ msg⟩ ∧
          msg.length = 2 ^ m ∧ t ≤ cfg.logBlowup + m ∧
          cfg.logBlowup + m ≤ logw := by
        intro cw hcw
        rcases List.mem_append.mp hcw with hcwf | hcwa
        · rcases hfold with ⟨msg, hfeq, hmlen, hble⟩ | ⟨hfe, _⟩
          · rw [hfeq] at hcwf
            exact ⟨logw - cfg.logBlowup, msg, List.mem_singleton.mp hcwf,
              hmlen, by omega, by omega⟩
          · rw [hfe] at hcwf
            simp at hcwf
        · obtain ⟨m, msg, hcweq, hmlen, hmfm, hbm⟩ :=
            hinp cw ((List.takeWhile_sublist _).mem hcwa)
          have hwl : t < wordLog cw := mem_takeWhile_wordLog hcwa
          rw [hcweq, wordLog_encode G ⟨cfg.logBlowup, m⟩ msg hmlen] at hwl
          have hwl' : t < cfg.logBlowup + m := hwl
          exact ⟨m, msg, hcweq, hmlen, by omega, hbm⟩
      obtain ⟨folded2, hmap, hlen2, hall2⟩ :=
        mapM_option_some (Codeword.foldToLogWordLen G t
            (friSb or s t (friFolded1 t folded inputs)).1)
          (fun y => ∃ mg, y = ⟨⟨cfg.logBlowup, t - cfg.logBlowup⟩, 0,
            RsCode.encode G ⟨cfg.logBlowup, t - cfg.logBlowup⟩ mg⟩ ∧
            mg.length = 2 ^ (t - cfg.logBlowup))
          (friFolded1 t folded inputs)
          (by
            intro cw hcw
            obtain ⟨m, msg, hcweq, hmlen, htbm, hbml⟩ := hmem cw hcw
            obtain ⟨msg', hfold', hlen'⟩ :=
              foldToLogWordLen_encode G
                (friSb or s t (friFolded1 t folded inputs)).1
                cfg.logBlowup m t msg (by omega) hmlen hbt (by omega)
            exact ⟨⟨⟨cfg.logBlowup, t - cfg.logBlowup⟩, 0,
                RsCode.encode G ⟨cfg.logBlowup, t - cfg.logBlowup⟩ msg'⟩,
              by rw [hcweq]; exact hfold', msg', rfl, hlen'⟩)
      have hne1 : friFolded1 t folded inputs ≠ [] := by
        rcases hfold with ⟨msg, hfeq, _, _⟩ | ⟨hfe, cw0, rest0, hie, hl0⟩
        · rw [friFolded1, hfeq]
          simp
        · rw [friFolded1, hfe, hie, List.nil_append]
          obtain ⟨m, msg, hcweq, hmlen, _, _⟩ :=
            hinp cw0 (by rw [hie]; simp)
          have hwl : t < wordLog cw0 := by
            rw [hcweq, wordLog_encode G ⟨cfg.logBlowup, m⟩ msg hmlen]
            have hlw : RsCode.logWordLen ⟨cfg.logBlowup, m⟩ = logw := by
              rw [← hl0, hcweq]
            omega
          rw [List.takeWhile_cons_of_pos (by simpa using hwl)]
          simp
      have hne2 : folded2 ≠ [] := by
        intro h0
        rw [h0] at hlen2
        exact hne1 (List.length_eq_zero.mp hlen2.symm)
      obtain ⟨total, hsum, htot⟩ :=
        sumWordsFromSameCode_encode G ⟨cfg.logBlowup, t - cfg.logBlowup⟩
          folded2 hne2 hall2
      obtain ⟨c', d', msgF, ℓ, s', hloop, hbl, hlbf, hml⟩ :=
        ih (inputs.dropWhile fun cw => t < wordLog cw) t
          (sumWordsFromSameCode folded2)
          (commits ++ [or.commit (friMats t (friFolded1 t folded inputs))])
          (data ++ [friMats t (friFolded1 t folded inputs)])
          (friSb or s t (friFolded1 t folded inputs)).2
          (by omega) (by omega) (by omega)
          (by
            intro cw hcw
            obtain ⟨m, msg, hcweq, hmlen, hmfm, _⟩ :=
              hinp cw ((List.dropWhile_sublist _).mem hcw)
            have hle : wordLog cw ≤ t :=
              mem_dropWhile_wordLog t inputs hpair cw hcw
            rw [hcweq, wordLog_encode G ⟨cfg.logBlowup, m⟩ msg hmlen] at hle
            have hle' : cfg.logBlowup + m ≤ t := hle
            exact ⟨m, msg, hcweq, hmlen, hmfm, hle'⟩)
          (hpair.sublist (List.dropWhile_sublist _))
          (Or.inl ⟨total, hsum, htot, hbt⟩)
      refine ⟨c', d', msgF, ℓ, s', ?_, hbl, hlbf, hml⟩
      have hstep : commitPhaseLoop G or cfg (fuel + 1) inputs logw folded
          commits data s =
          match (friFolded1 t folded inputs).mapM
              (Codeword.foldToLogWordLen G t
                (friSb or s t (friFolded1 t folded inputs)).1) with
          | none => none
          | some folded2 =>
            commitPhaseLoop G or cfg fuel
              (inputs.dropWhile fun cw => t < wordLog cw) t
              (sumWordsFromSameCode folded2)
              (commits ++ [or.commit (friMats t
                (friFolded1 t folded inputs))])
              (data ++ [friMats t (friFolded1 t folded inputs)])
              (friSb or s t (friFolded1 t folded inputs)).2 := by
        rw [commitPhaseLoop, if_neg hexit, if_neg hge]
      rw [hstep, hmap]
      exact hloop

/-- **C1 (amended).** For every valid input set (full codewords with the
config's blowup, strictly decreasing in length, message lengths above
`2^log_max_final_poly_len` and word-length logs within the field's two-adic
order), `commit_phase` succeeds: the folding loop runs until exactly one
codeword remains, whose length `2^ℓ` satisfies
`ℓ ≤ log_blowup + log_max_final_poly_len` (with equality only when the
folding arity divides the remaining gap, not in general as the claim
states), and the final polynomial obtained by decoding it has
`2^(ℓ − log_blowup) ≤ 2^log_max_final_poly_len` coefficients — hence
degree `< 2^log_max_final_poly_len`. -/
theorem C1_commit_phase_corrected (G : TwoAdicGens F)
    (or : FriOracle F C S) (cfg : FriConfig)
    (ha : 1 ≤ cfg.logFoldingArity)
    (hamf : cfg.logFoldingArity ≤ cfg.logMaxFinalPolyLen + 1)
    (inputs : List (Codeword F)) (s : S)
    (hinp : ∀ cw ∈ inputs, ∃ m msg, cw = ⟨⟨cfg.logBlowup, m⟩, 0,
        RsCode.encode G ⟨cfg.logBlowup, m⟩ msg⟩ ∧ msg.length = 2 ^ m ∧
      cfg.logMaxFinalPolyLen < m ∧ cfg.logBlowup + m ≤ G.maxLog)
    (hpair : List.Pairwise (fun x y => wordLog y < wordLog x) inputs)
    (hne : inputs ≠ []) :
    ∃ commits data finalPoly s' ℓ,
      commitPhase G or cfg inputs s =
        some (commits, data, finalPoly, s') ∧
      cfg.logBlowup ≤ ℓ ∧
      ℓ ≤ cfg.logBlowup + cfg.logMaxFinalPolyLen ∧
      finalPoly.length = 2 ^ (ℓ - cfg.logBlowup) ∧
      finalPoly.length ≤ 2 ^ cfg.logMaxFinalPolyLen := by
  obtain ⟨cw0, rest0, rfl⟩ : ∃ cw0 rest0, inputs = cw0 :: rest0 := by
    cases inputs with
    | nil => exact absurd rfl hne
    | cons a l => exact ⟨a, l, rfl⟩
  obtain ⟨m0, msg0, hcw0, hm0len, hmf0, hbm0⟩ := hinp cw0 (by simp)
  have hl0 : cw0.code.logWordLen = cfg.logBlowup + m0 := by rw [hcw0]; rfl
  have hwl0 : wordLog cw0 = cw0.code.logWordLen := by
    rw [hcw0, wordLog_encode G ⟨cfg.logBlowup, m0⟩ msg0 hm0len]
  have hinpL : ∀ cw ∈ cw0 :: rest0, ∃ m msg,
      cw = ⟨⟨cfg.logBlowup, m⟩, 0,
        RsCode.encode G ⟨cfg.logBlowup, m⟩ msg⟩ ∧ msg.length = 2 ^ m ∧
      cfg.logMaxFinalPolyLen < m ∧
      cfg.logBlowup + m ≤ cw0.code.logWordLen := by
    intro cw hcw
    obtain ⟨m, msg, hcweq, hmlen, hmfm, _⟩ := hinp cw hcw
    have hwl : wordLog cw = cfg.logBlowup + m := by
      rw [hcweq, wordLog_encode G ⟨cfg.logBlowup, m⟩ msg hmlen]; rfl
    have hle : wordLog cw ≤ wordLog cw0 := by
      rcases List.mem_cons.mp hcw with h1 | h2
      · rw [h1]
      · exact le_of_lt ((List.pairwise_cons.mp hpair).1 cw h2)
    exact ⟨m, msg, hcweq, hmlen, hmfm, by omega⟩
  obtain ⟨c', d', msgF, ℓ, s1, hloop, hbl, hlbf, hml⟩ :=
    commitPhaseLoop_spec G or cfg ha hamf (cw0.code.logWordLen + 1)
      (cw0 :: rest0) cw0.code.logWordLen [] [] [] s
      (by omega) (by omega) (by omega) hinpL hpair
      (Or.inr ⟨rfl, cw0, rest0, rfl, rfl⟩)
  have hdec : RsCode.decode G ⟨cfg.logBlowup, ℓ - cfg.logBlowup⟩
      (RsCode.encode G ⟨cfg.logBlowup, ℓ - cfg.logBlowup⟩ msgF) =
      some msgF :=
    decode_encode G ⟨cfg.logBlowup, ℓ - cfg.logBlowup⟩
      (by show cfg.logBlowup + (ℓ - cfg.logBlowup) ≤ G.maxLog; omega)
      msgF hml
  refine ⟨c', d', msgF, or.observeExtSlice s1 msgF, ℓ, ?_, hbl, hlbf, hml,
    by rw [hml]; exact Nat.pow_le_pow_right (by omega) (by omega)⟩
  have hcp : commitPhase G or cfg (cw0 :: rest0) s =
      match commitPhaseLoop G or cfg (cw0.code.logWordLen + 1)
          (cw0 :: rest0) cw0.code.logWordLen [] [] [] s with
      | none => none
      | some (commits, data, folded, s1) =>
        match folded with
        | [f] =>
          match f.code.decode G f.word with
          | none => none
          | some finalPoly =>
            some (commits, data, finalPoly,
              or.observeExtSlice s1 finalPoly)
        | _ => none := rfl
  rw [hcp, hloop]
  show (match RsCode.decode G ⟨cfg.logBlowup, ℓ - cfg.logBlowup⟩
      (RsCode.encode G ⟨cfg.logBlowup, ℓ - cfg.logBlowup⟩ msgF) with
    | none => none
    | some finalPoly =>
      some (c', d', finalPoly, or.observeExtSlice s1 finalPoly)) =
    some (c', d', msgF, or.observeExtSlice s1 msgF)
  rw [hdec]

/-- **C4 (amended).** For every query index `j` and layer `l`,
`answer_query` opens the layer's matrices at row `j' = j >> arity` of the
threaded index `j >> (l·arity)`, removes from each opened row the entry at
column `j'' >> (arity − log2(row length))` — which is column `j''` exactly
when the row has the full `2^arity` entries — and passes `j'` to the next
layer (layer `l` sees `j >> (l·arity)`). -/
theorem C4_answer_query_corrected (cfg : FriConfig)
    (data : List (FriLayerData F)) (index : ℕ) :
    (answerQuery cfg data index).length = data.length ∧
    (∀ l, l < data.length →
      (answerQuery cfg data index).getD l ⟨[], ()⟩ =
        ⟨(openBatch ((index >>> (l * cfg.logFoldingArity)) >>>
              cfg.logFoldingArity) (data.getD l [])).map fun o =>
            o.eraseIdx
              (((index >>> (l * cfg.logFoldingArity)) %
                  2 ^ cfg.logFoldingArity) >>>
                (cfg.logFoldingArity - ilog2 o.length)),
          ()⟩) ∧
    (∀ o : List F, o.length = 2 ^ cfg.logFoldingArity →
      cfg.logFoldingArity - ilog2 o.length = 0) :=
  ⟨answerQuery_length cfg data index,
   fun l hl => answerQuery_getD cfg data index l hl,
   fun o ho => by rw [ho, ilog2_two_pow, Nat.sub_self]⟩

end Fri

/-! ## Concrete instances for the FRI claims -/

/-- A concrete MMCS/challenger oracle over the 17-element field: trivial
commitments, sampled challenges `3^s`. -/
def friOr : FriOracle F17 Unit ℕ :=
  ⟨fun _ => (), fun s _ => s + 1, fun s => ((3 : F17) ^ s, s + 1),
   fun s _ => s + 1, fun s _ => (0, s + 1), fun s _ => (0, s + 1)⟩

/-- Config with `log_blowup = 1`, used to exhibit the blowup-mismatch
assertion. -/
def cfgBlowup1 : FriConfig := ⟨1, 1, 1, 1, 0⟩

/-- Concrete instance of C8: a full codeword whose code has `log_blowup = 0`
fails the first assertion of a `log_blowup = 1` config, and `prove` aborts. -/
theorem C8_fri_prove_assertions_witness :
    friProveChecks cfgBlowup1 [(⟨⟨0, 1⟩, 0, [1, 2]⟩ : Codeword F17)] = false ∧
    friProve gens17 friOr cfgBlowup1 [(⟨⟨0, 1⟩, 0, [1, 2]⟩ : Codeword F17)]
      (fun _ => ()) 0 = none :=
  ⟨by decide,
   (C8_fri_prove_assertions gens17 friOr cfgBlowup1
      [(⟨⟨0, 1⟩, 0, [1, 2]⟩ : Codeword F17)] (fun _ => ()) 0).2 (by decide)⟩

/-- Config with folding arity 2, used for the C4 counterexample: layers can
then hold matrices with fewer than `2^arity` columns. -/
def cfgArity2 : FriConfig := ⟨1, 1, 2, 0, 0⟩

/-- **C4 counterexample.** With folding arity 2, a layer holding a 2-column
matrix (a codeword activated one fold late), and query index `j = 2`
(`j' = 0`, `j'' = 2`): the source removes the entry at column
`j'' >> (2 − 1) = 1`, not at column `j''` as the claim states, so
`answer_query` differs from the claim's description. -/
theorem C4_answer_query_counterexample :
    answerQuery cfgArity2 [[[[(1 : F17), 2]]]] 2 = [⟨[[1]], ()⟩] ∧
    answerQuerySpec cfgArity2 [[[[(1 : F17), 2]]]] 2 = [⟨[[1, 2]], ()⟩] ∧
    answerQuery cfgArity2 [[[[(1 : F17), 2]]]] 2 ≠
      answerQuerySpec cfgArity2 [[[[(1 : F17), 2]]]] 2 := by
  refine ⟨by decide, by decide, by decide⟩

/-- Concrete instance of the amended C4 on the counterexample's layer
data. -/
theorem C4_answer_query_corrected_witness :
    (answerQuery cfgArity2 [[[[(1 : F17), 2]]]] 2).getD 0 ⟨[], ()⟩ =
      ⟨(openBatch ((2 >>> (0 * cfgArity2.logFoldingArity)) >>>
            cfgArity2.logFoldingArity) ([[[[(1 : F17), 2]]]].getD 0 [])).map
          fun o =>
            o.eraseIdx
              (((2 >>> (0 * cfgArity2.logFoldingArity)) %
                  2 ^ cfgArity2.logFoldingArity) >>>
                (cfgArity2.logFoldingArity - ilog2 o.length)),
        ()⟩ :=
  (C4_answer_query_corrected cfgArity2 [[[[(1 : F17), 2]]]] 2).2.1 0 (by decide)

/-- Config with no blowup, `log_max_final_poly_len = 1` and folding
arity 2: one folding round jumps past the final-length bound. -/
def cfgC1 : FriConfig := ⟨0, 1, 2, 0, 0⟩

/-- Config with no blowup, `log_max_final_poly_len = 1` and folding
arity 1. -/
def cfgC1w : FriConfig := ⟨0, 1, 1, 0, 0⟩

/-- **C1 counterexample.** On a valid input set (one full degree-`< 4`
codeword with the config's blowup 0) with folding arity 2, the commit-phase
loop stops with exactly one codeword of length `1`, not of length
`2^(log_blowup + log_max_final_poly_len) = 2` as the claim states, and the
final polynomial has `1` coefficient: the arity does not divide the gap, so
the last fold undershoots the claimed final length. -/
theorem C1_commit_phase_counterexample :
    ((commitPhaseLoop gens17 friOr cfgC1 3
        [⟨⟨0, 2⟩, 0, RsCode.encode gens17 ⟨0, 2⟩ [1, 2, 3, 4]⟩] 2
        [] [] [] 0).map fun r => r.2.2.1.map fun cw => cw.word.length) =
      some [1] ∧
    ((commitPhase gens17 friOr cfgC1
        [⟨⟨0, 2⟩, 0, RsCode.encode gens17 ⟨0, 2⟩ [1, 2, 3, 4]⟩] 0).map
      fun r => r.2.2.1.length) = some 1 ∧
    (1 : ℕ) ≠ 2 ^ (cfgC1.logBlowup + cfgC1.logMaxFinalPolyLen) :=
  ⟨by decide, by decide, by decide⟩

/-- Concrete instance of the amended C1 on the 17-element field with
folding arity 1: the commit phase succeeds and the final polynomial has at
most `2^log_max_final_poly_len` coefficients. -/
theorem C1_commit_phase_corrected_witness :
    ∃ commits data finalPoly s' ℓ,
      commitPhase gens17 friOr cfgC1w
          [⟨⟨0, 2⟩, 0, RsCode.encode gens17 ⟨0, 2⟩ [1, 2, 3, 4]⟩] 0 =
        some (commits, data, finalPoly, s') ∧
      cfgC1w.logBlowup ≤ ℓ ∧
      ℓ ≤ cfgC1w.logBlowup + cfgC1w.logMaxFinalPolyLen ∧
      finalPoly.length = 2 ^ (ℓ - cfgC1w.logBlowup) ∧
      finalPoly.length ≤ 2 ^ cfgC1w.logMaxFinalPolyLen :=
  C1_commit_phase_corrected gens17 friOr cfgC1w (by decide) (by decide)
    [⟨⟨0, 2⟩, 0, RsCode.encode gens17 ⟨0, 2⟩ [1, 2, 3, 4]⟩] 0
    (fun cw hcw => ⟨2, [1, 2, 3, 4], by simpa using hcw, by decide,
      by decide, by decide⟩)
    (List.pairwise_singleton _ _) (List.cons_ne_nil _ _)

end Plonky3
